import Mathlib

/-!
Verification of the insta TokenStream snapshot helpers
(src/insta/src/tokenstream.rs) against the natural-language specification.

Shallow embedding notes.

The module under verification operates on three layers of external data
that the Rust code imports from collaborator crates: token streams
(proc_macro2::TokenStream), parsed syntax trees (syn::File and syn::Expr),
and formatted source text (prettier_please::unparse and unparse_expr).
The spec lists these as external collaborators; they are modelled here by
executable Lean functions covering the sublanguage the repository
exercises (struct items with named fields, outer and inner attributes of
the form name = "string literal", doc comments, and small expressions),
with the exact textual behaviour pinned by the snapshot tests inside
tokenstream.rs: TokenStream to_string output such as
"struct MyStruct \x7b field : i32 , \x7d" and "Vec < u8 >", and formatter
output such as "struct MyStruct \x7b\n    field: i32,\n\x7d" with doc
attributes printed back as doc comments.

A proc_macro2 TokenStream is a sequence of token trees with nested
delimiter groups; a group is always balanced.  The model represents a
stream as a flat token list with explicit open and close delimiter
tokens, balance being recorded by the well-formedness predicate; the two
representations are in bijection for balanced streams, and the model
lexer rejects unbalanced text exactly as proc_macro2 does.  All puncts
are modelled with Alone spacing, which matches every stream the
repository builds.  Literal tokens carry their source text, as
proc_macro2 literals do.

The functions translated from src/insta/src/tokenstream.rs keep their
Rust names: tokens_equal, pretty_print, pretty_print_for_inline,
remove_docs_if and the RemovableDocs class with its File, Expr and pair
instances.  The ambient Settings thread local is passed explicitly.
-/

namespace Insta

/-- Delimiter kinds of proc_macro2 groups. -/
inductive Delim
  | paren
  | brace
  | bracket
  deriving DecidableEq, Repr

/-- A flat token of a proc_macro2 TokenStream: identifiers (including
keywords), literals carrying their source text, punctuation with Alone
spacing, and explicit open and close delimiters for groups. -/
inductive Tok
  | ident (s : String)
  | lit (s : String)
  | punct (c : Char)
  | openT (d : Delim)
  | closeT (d : Delim)
  deriving DecidableEq, Repr

/-- A TokenStream is modelled as a flat token list. -/
abbrev TokenStream := List Tok

/-- The two booleans of the ambient Settings context, with the defaults
documented in the spec and in the Rust comments (both default to true). -/
structure Settings where
  format_tokens : Bool := true
  ignore_docs_for_tokens : Bool := true
  deriving DecidableEq

/-- The default settings: format on, ignore docs on. -/
def defaultSettings : Settings := {}

/-! ## Character classes for the model lexer -/

/-- First character of a Rust identifier. -/
def identStartChar (c : Char) : Bool := c.isAlpha || c = '_'

/-- Continuation character of a Rust identifier. -/
def identChar (c : Char) : Bool := c.isAlphanum || c = '_'

/-- Whitespace characters recognised by the lexer. -/
def wsChar (c : Char) : Bool := c = ' ' || c = '\n' || c = '\t' || c = '\r'

/-- Characters that lex as single punctuation tokens.  The slash is
handled separately because of comments, and the quote starts a string. -/
def punctuationChar (c : Char) : Bool :=
  ['#', '!', '=', ':', ';', ',', '+', '-', '*', '<', '>', '&', '|', '@',
   '.', '?', '$', '%', '^', '~'].contains c

/-- Opening character of a delimiter. -/
def openChar : Delim → Char
  | .paren => '('
  | .brace => '\x7b'
  | .bracket => '['

/-- Closing character of a delimiter. -/
def closeChar : Delim → Char
  | .paren => ')'
  | .brace => '\x7d'
  | .bracket => ']'

/-- Wrap a string body in double quotes, producing literal source text. -/
def quoteWrap (s : String) : String := "\"" ++ s ++ "\""

/-- Token sequence produced by an outer doc comment line, mirroring the
desugaring rustc and proc_macro2 perform for doc comments. -/
def docToksOut (v : String) : List Tok :=
  [.punct '#', .openT .bracket, .ident "doc", .punct '=',
   .lit (quoteWrap v), .closeT .bracket]

/-- Token sequence produced by an inner doc comment line. -/
def docToksIn (v : String) : List Tok :=
  [.punct '#', .punct '!', .openT .bracket, .ident "doc", .punct '=',
   .lit (quoteWrap v), .closeT .bracket]

/-! ## The model lexer

A deterministic automaton over characters: the state keeps the partially
read token, the reversed list of finished tokens and the stack of open
delimiters.  Running it is a left fold, so it is executable and composes
over string concatenation.
-/

/-- Partially read token of the lexer. -/
inductive Pend
  | none
  | ident (rev : List Char)
  | num (rev : List Char)
  | str (rev : List Char)
  | slash
  | slash2
  | comment
  | docO (rev : List Char)
  | docI (rev : List Char)
  deriving DecidableEq

/-- Lexer state. -/
structure LexSt where
  pend : Pend
  acc : List Tok
  depth : List Delim
  err : Bool
  deriving DecidableEq

/-- Close a delimiter, checking the stack. -/
def closeDelim (d : Delim) (st : LexSt) : LexSt :=
  match st.depth with
  | d2 :: rest =>
    if d = d2 then { st with acc := .closeT d :: st.acc, depth := rest }
    else { st with err := true }
  | [] => { st with err := true }

/-- Handle one character from a state with no partial token. -/
def startChar (c : Char) (st : LexSt) : LexSt :=
  if wsChar c then st
  else if identStartChar c then { st with pend := .ident [c] }
  else if c.isDigit then { st with pend := .num [c] }
  else if c = '"' then { st with pend := .str [] }
  else if c = '/' then { st with pend := .slash }
  else if c = '(' then { st with acc := .openT .paren :: st.acc, depth := .paren :: st.depth }
  else if c = '\x7b' then { st with acc := .openT .brace :: st.acc, depth := .brace :: st.depth }
  else if c = '[' then { st with acc := .openT .bracket :: st.acc, depth := .bracket :: st.depth }
  else if c = ')' then closeDelim .paren st
  else if c = '\x7d' then closeDelim .brace st
  else if c = ']' then closeDelim .bracket st
  else if punctuationChar c then { st with acc := .punct c :: st.acc }
  else { st with err := true }

/-- One transition of the lexer automaton. -/
def lexStep (st : LexSt) (c : Char) : LexSt :=
  if st.err then st else
  match st.pend with
  | .none => startChar c st
  | .ident rev =>
    if identChar c then { st with pend := .ident (c :: rev) }
    else startChar c { st with pend := .none, acc := .ident (String.mk rev.reverse) :: st.acc }
  | .num rev =>
    if c.isDigit then { st with pend := .num (c :: rev) }
    else if identChar c then { st with err := true }
    else startChar c { st with pend := .none, acc := .lit (String.mk rev.reverse) :: st.acc }
  | .str rev =>
    if c = '"' then { st with pend := .none, acc := .lit (quoteWrap (String.mk rev.reverse)) :: st.acc }
    else if c = '\\' then { st with err := true }
    else { st with pend := .str (c :: rev) }
  | .slash =>
    if c = '/' then { st with pend := .slash2 }
    else startChar c { st with pend := .none, acc := .punct '/' :: st.acc }
  | .slash2 =>
    if c = '/' then { st with pend := .docO [] }
    else if c = '!' then { st with pend := .docI [] }
    else if c = '\n' then { st with pend := .none }
    else { st with pend := .comment }
  | .comment =>
    if c = '\n' then { st with pend := .none } else st
  | .docO rev =>
    if c = '\n' then
      { st with pend := .none, acc := (docToksOut (String.mk rev.reverse)).reverse ++ st.acc }
    else { st with pend := .docO (c :: rev) }
  | .docI rev =>
    if c = '\n' then
      { st with pend := .none, acc := (docToksIn (String.mk rev.reverse)).reverse ++ st.acc }
    else { st with pend := .docI (c :: rev) }

/-- Check that all delimiters were closed and reverse the token list. -/
def finDepth (acc : List Tok) : List Delim → Option (List Tok)
  | [] => some acc.reverse
  | _ :: _ => none

/-- Finish lexing: flush the pending token and check balance.  An
unterminated string literal is an error, exactly as in rustc. -/
def finishLex (st : LexSt) : Option (List Tok) :=
  if st.err then none else
  match st.pend with
  | .none => finDepth st.acc st.depth
  | .ident rev => finDepth (.ident (String.mk rev.reverse) :: st.acc) st.depth
  | .num rev => finDepth (.lit (String.mk rev.reverse) :: st.acc) st.depth
  | .str _ => none
  | .slash => finDepth (.punct '/' :: st.acc) st.depth
  | .slash2 => finDepth st.acc st.depth
  | .comment => finDepth st.acc st.depth
  | .docO rev => finDepth ((docToksOut (String.mk rev.reverse)).reverse ++ st.acc) st.depth
  | .docI rev => finDepth ((docToksIn (String.mk rev.reverse)).reverse ++ st.acc) st.depth

/-- Initial lexer state. -/
def initLexSt : LexSt := ⟨.none, [], [], false⟩

/-- Model of proc_macro2 TokenStream from_str: lex source text into a
flat token stream, or fail. -/
def tokenize (s : String) : Option (List Tok) :=
  finishLex (s.data.foldl lexStep initLexSt)

/-! ## The model syntax trees (syn::File and syn::Expr)

Attributes are of the meta name-value form path = "text", the only form
the repository exercises; the value field stores the unquoted body.  A
file carries inner attributes and items, as syn::File does, and every
expression variant carries attributes, as syn expressions do.
-/

/-- An attribute path = "value"; for doc attributes the path is doc. -/
structure Attr where
  path : String
  value : String
  deriving DecidableEq, Repr

/-- A named struct field with its attributes. -/
structure FieldD where
  attrs : List Attr
  name : String
  ty : String
  deriving DecidableEq, Repr

/-- Body of a struct item: unit struct or named fields. -/
inductive StructBody
  | unit
  | fields (fs : List FieldD)
  deriving DecidableEq, Repr

/-- A struct item with its outer attributes. -/
structure Item where
  attrs : List Attr
  name : String
  body : StructBody
  deriving DecidableEq, Repr

/-- Model of syn::File: inner attributes followed by items. -/
structure File where
  attrs : List Attr
  items : List Item
  deriving DecidableEq, Repr

/-- Model of syn::Expr: literals and identifiers, sums of them, each
variant carrying its outer attributes. -/
inductive Expr
  | lit (attrs : List Attr) (text : String)
  | var (attrs : List Attr) (name : String)
  | add (attrs : List Attr) (l r : Expr)
  deriving DecidableEq, Repr

/-! ## The model tier parsers (syn::parse2) -/

/-- Strip the surrounding double quotes from literal source text,
failing when the text is not a string literal. -/
def unquote (s : String) : Option String :=
  match s.data with
  | '"' :: rest =>
    if rest.getLast? = some '"' then some (String.mk rest.dropLast) else none
  | _ => none

/-- Parser mode: at the top level collecting pending outer attributes,
or inside a struct body collecting fields. -/
inductive PSt
  | top (pend : List Attr)
  | infields (itAttrs : List Attr) (name : String) (acc : List FieldD) (pend : List Attr)

/-- Recursive descent over the flat token list for the item language;
structural recursion on the stream.  Pending attributes at the end of
the input or before a closing brace are an error, as in syn. -/
def parseP : List Tok → PSt → Option (List Item)
  | [], .top [] => some []
  | [], .top (_ :: _) => none
  | .punct '#' :: .openT .bracket :: .ident p :: .punct '=' :: .lit v :: .closeT .bracket :: rest,
    .top pend =>
    match unquote v with
    | some body => parseP rest (.top (pend ++ [⟨p, body⟩]))
    | none => none
  | .ident "struct" :: .ident n :: .punct ';' :: rest, .top pend =>
    (parseP rest (.top [])).map (⟨pend, n, .unit⟩ :: ·)
  | .ident "struct" :: .ident n :: .openT .brace :: rest, .top pend =>
    parseP rest (.infields pend n [] [])
  | .closeT .brace :: rest, .infields ia n acc [] =>
    (parseP rest (.top [])).map (⟨ia, n, .fields acc.reverse⟩ :: ·)
  | .punct '#' :: .openT .bracket :: .ident p :: .punct '=' :: .lit v :: .closeT .bracket :: rest,
    .infields ia n acc pend =>
    match unquote v with
    | some body => parseP rest (.infields ia n acc (pend ++ [⟨p, body⟩]))
    | none => none
  | .ident fn :: .punct ':' :: .ident ty :: .punct ',' :: rest, .infields ia n acc pend =>
    parseP rest (.infields ia n (⟨pend, fn, ty⟩ :: acc) [])
  | .ident fn :: .punct ':' :: .ident ty :: .closeT .brace :: rest, .infields ia n acc pend =>
    (parseP rest (.top [])).map (⟨ia, n, .fields ((⟨pend, fn, ty⟩ :: acc)).reverse⟩ :: ·)
  | _, _ => none

/-- Collect leading inner attributes, then parse items. -/
def parseFileAux : List Tok → List Attr → Option File
  | .punct '#' :: .punct '!' :: .openT .bracket :: .ident p :: .punct '=' :: .lit v ::
    .closeT .bracket :: rest, acc =>
    match unquote v with
    | some body => parseFileAux rest (acc ++ [⟨p, body⟩])
    | none => none
  | ts, acc => (parseP ts (.top [])).map (⟨acc, ·⟩)

/-- Model of syn::parse2 at the complete-unit tier.  The empty stream
parses as the empty file, exactly as in syn. -/
def parseFile (ts : List Tok) : Option File := parseFileAux ts []

/-- Prepend an attribute to the attribute list of an expression. -/
def withAttrCons (a : Attr) : Expr → Expr
  | .lit as t => .lit (a :: as) t
  | .var as s => .var (a :: as) s
  | .add as l r => .add (a :: as) l r

/-- Model of syn::parse2 at the expression tier: leading outer
attributes attach to the whole expression; sums associate to the right
with primary left operands.  The empty stream is not an expression. -/
def parseExpr : List Tok → Option Expr
  | .punct '#' :: .openT .bracket :: .ident p :: .punct '=' :: .lit v :: .closeT .bracket :: rest =>
    match unquote v with
    | some body => (parseExpr rest).map (withAttrCons ⟨p, body⟩)
    | none => none
  | [.lit v] => some (.lit [] v)
  | [.ident s] => some (.var [] s)
  | .lit v :: .punct '+' :: rest => (parseExpr rest).map (.add [] (.lit [] v) ·)
  | .ident s :: .punct '+' :: rest => (parseExpr rest).map (.add [] (.var [] s) ·)
  | _ => none

/-! ## Doc removal (the DocRemover visitor) -/

/-- Translation of the visit_attributes_mut override of the DocRemover
visitor: retain the attributes whose path is not the identifier doc. -/
def removeDocAttrs (attrs : List Attr) : List Attr :=
  attrs.filter (fun a => !(a.path = "doc" : Bool))

/-- Remove doc attributes from a field. -/
def FieldD.remove_docs_at (f : FieldD) : FieldD :=
  { f with attrs := removeDocAttrs f.attrs }

/-- Remove doc attributes from a struct body. -/
def StructBody.remove_docs_at : StructBody → StructBody
  | .unit => .unit
  | .fields fs => .fields (fs.map FieldD.remove_docs_at)

/-- Remove doc attributes from an item. -/
def Item.remove_docs_at (it : Item) : Item :=
  { it with attrs := removeDocAttrs it.attrs, body := it.body.remove_docs_at }

/-- Translation of the RemovableDocs trait. -/
class RemovableDocs (α : Type) where
  remove_docs : α → α

/-- Remove doc attributes everywhere in an expression. -/
def Expr.removeDocsE : Expr → Expr
  | .lit as t => .lit (removeDocAttrs as) t
  | .var as s => .var (removeDocAttrs as) s
  | .add as l r => .add (removeDocAttrs as) l.removeDocsE r.removeDocsE

/-- The DocRemover visit over a syn::Expr. -/
instance : RemovableDocs Expr := ⟨Expr.removeDocsE⟩

/-- The DocRemover visit over a syn::File: file inner attributes, item
attributes and field attributes are all visited. -/
instance : RemovableDocs File :=
  ⟨fun f => ⟨removeDocAttrs f.attrs, f.items.map Item.remove_docs_at⟩⟩

/-- The pair instance of RemovableDocs, as in the Rust impl for (T, T). -/
instance [RemovableDocs α] : RemovableDocs (α × α) :=
  ⟨fun p => (RemovableDocs.remove_docs p.1, RemovableDocs.remove_docs p.2)⟩

/-- Translation of remove_docs_if from tokenstream.rs. -/
def remove_docs_if [RemovableDocs α] (tokens : α) (should_remove : Bool) : α :=
  if should_remove then RemovableDocs.remove_docs tokens else tokens

/-! ## Canonical textual rendering (TokenStream to_string)

proc_macro2 renders tokens separated by single spaces, except that no
space follows an opening parenthesis or bracket and no space precedes a
closing parenthesis or bracket; brace groups keep their inner spaces.
The snapshot tests in tokenstream.rs pin this down:
"struct MyStruct \x7b field : i32 , \x7d" and "Vec < u8 >".
-/

/-- Text of one flat token. -/
def tokText : Tok → String
  | .ident s => s
  | .lit s => s
  | .punct c => String.mk [c]
  | .openT d => String.mk [openChar d]
  | .closeT d => String.mk [closeChar d]

/-- Separator between two adjacent rendered tokens. -/
def sepStr (a b : Tok) : String :=
  match a, b with
  | .openT .paren, _ => ""
  | .openT .bracket, _ => ""
  | _, .closeT .paren => ""
  | _, .closeT .bracket => ""
  | _, _ => " "

/-- Model of TokenStream to_string. -/
def tsToString : List Tok → String
  | [] => ""
  | [t] => tokText t
  | t :: u :: rest => tokText t ++ sepStr t u ++ tsToString (u :: rest)

/-! ## The model structure-aware formatter (prettier_please)

The layout is pinned by the snapshot tests in tokenstream.rs: four-space
field indentation, a trailing comma on every field, doc attributes
printed back as doc comment lines, and a trailing newline after the last
item, as the prettyplease family of formatters emits.
-/

/-- Concatenate a list of strings; cons-structured for easy induction. -/
def strJoin : List String → String
  | [] => ""
  | s :: rest => s ++ strJoin rest

/-- Render one outer attribute at the given indentation: doc attributes
print as doc comments, other attributes in bracket form. -/
def attrTextOut (ind : String) (a : Attr) : String :=
  if a.path = "doc" then ind ++ "///" ++ a.value ++ "\n"
  else ind ++ "#[" ++ a.path ++ " = " ++ quoteWrap a.value ++ "]\n"

/-- Render one inner attribute. -/
def attrTextIn (a : Attr) : String :=
  if a.path = "doc" then "//!" ++ a.value ++ "\n"
  else "#![" ++ a.path ++ " = " ++ quoteWrap a.value ++ "]\n"

/-- Render a struct field line with its attributes. -/
def fieldText (f : FieldD) : String :=
  strJoin (f.attrs.map (attrTextOut "    ")) ++
    "    " ++ f.name ++ ": " ++ f.ty ++ ",\n"

/-- Render one item with its attributes. -/
def itemText (it : Item) : String :=
  strJoin (it.attrs.map (attrTextOut "")) ++
    match it.body with
    | .unit => "struct " ++ it.name ++ ";\n"
    | .fields fs =>
      "struct " ++ it.name ++ " \x7b\n" ++ strJoin (fs.map fieldText) ++ "\x7d\n"

/-- Model of prettier_please unparse for a file: inner attributes, then
the items; the output of a nonempty file ends with a newline. -/
def unparse (f : File) : String :=
  strJoin (f.attrs.map attrTextIn) ++ strJoin (f.items.map itemText)

/-- Attributes of the top expression node. -/
def exprAttrs : Expr → List Attr
  | .lit as _ => as
  | .var as _ => as
  | .add as _ _ => as

/-- Render one attribute inline in bracket form, with a trailing
space. -/
def attrInlineText (a : Attr) : String :=
  "#[" ++ a.path ++ " = " ++ quoteWrap a.value ++ "] "

/-- Model of prettier_please unparse_expr: each node prints its
attributes in bracket form before its own text, with no trailing
newline. -/
def unparse_expr : Expr → String
  | .lit as t => strJoin (as.map attrInlineText) ++ t
  | .var as s => strJoin (as.map attrInlineText) ++ s
  | .add as l r =>
    strJoin (as.map attrInlineText) ++ unparse_expr l ++ " + " ++ unparse_expr r

/-! ## The functions under verification, from tokenstream.rs -/

/-- Character containment at the character-list level, the model of the
Rust String contains(char) call. -/
def strContains (s : String) (c : Char) : Bool := s.data.contains c

/-- Model of the Rust trim_end: drop trailing whitespace characters. -/
def trimEnd (s : String) : String :=
  String.mk ((s.data.reverse.dropWhile (fun c => c.isWhitespace)).reverse)

/-- Translation of pretty_print from tokenstream.rs: with formatting off
return the raw rendering; otherwise try the file tier, then the
expression tier, then fall back to the raw rendering.  The function is
total: no branch can fail. -/
def pretty_print (s : Settings) (tokens : List Tok) : String :=
  if !s.format_tokens then tsToString tokens
  else
    match parseFile tokens with
    | some file => unparse (remove_docs_if file s.ignore_docs_for_tokens)
    | none =>
      match parseExpr tokens with
      | some expr => unparse_expr (remove_docs_if expr s.ignore_docs_for_tokens)
      | none => tsToString tokens

/-- Translation of pretty_print_for_inline from tokenstream.rs. -/
def pretty_print_for_inline (s : Settings) (tokens : List Tok) : String :=
  let pretty := pretty_print s tokens
  if strContains pretty '\n' then "\n" ++ trimEnd pretty ++ "\n" else pretty

/-- Translation of tokens_equal from tokenstream.rs: both sides must
parse as files for the first tier, both as expressions for the second,
and otherwise the raw renderings are compared; doc attributes are
stripped per the setting on the structural tiers only.  The pair
instance of RemovableDocs is used exactly as in the Rust source. -/
def tokens_equal (s : Settings) (a b : List Tok) : Bool :=
  match parseFile a, parseFile b with
  | some a_file, some b_file =>
    let p := remove_docs_if (a_file, b_file) s.ignore_docs_for_tokens
    decide (p.1 = p.2)
  | _, _ =>
    match parseExpr a, parseExpr b with
    | some a_expr, some b_expr =>
      let p := remove_docs_if (a_expr, b_expr) s.ignore_docs_for_tokens
      decide (p.1 = p.2)
    | _, _ => decide (tsToString a = tsToString b)

/-! ## Well-formedness

The conditions mirror invariants the Rust types guarantee by
construction: a proc_macro2 Ident is a valid nonempty identifier, a
literal carries valid literal text, punct characters come from the Rust
punctuation set, and a TokenStream is balanced.  Attribute values keep
clear of the quote, backslash and newline characters, matching the
escaping-free literals the repository exercises.
-/

/-- Valid identifier text. -/
def validIdentStr (s : String) : Bool :=
  match s.data with
  | [] => false
  | c :: rest => identStartChar c && rest.all identChar

/-- Valid integer literal text. -/
def validNumStr (s : String) : Bool :=
  !s.data.isEmpty && s.data.all Char.isDigit

/-- Valid string literal body: no quote, no backslash, no newline; the
model keeps to single-line escape-free string literals, the only form
the repository exercises. -/
def validStrBody (v : String) : Bool :=
  v.data.all (fun c => !(c = '"' : Bool) && !(c = '\\' : Bool) && !(c = '\n' : Bool))

/-- Valid literal source text: a quoted string or an integer. -/
def validLitText (s : String) : Bool :=
  match unquote s with
  | some b => validStrBody b
  | none => validNumStr s

/-- Well-formed token. -/
def wfTok : Tok → Bool
  | .ident s => validIdentStr s
  | .lit s => validLitText s
  | .punct c => punctuationChar c
  | .openT _ => true
  | .closeT _ => true

/-- Track the delimiter stack across a flat stream. -/
def runDepth : List Tok → List Delim → Option (List Delim)
  | [], d => some d
  | .openT dl :: rest, d => runDepth rest (dl :: d)
  | .closeT dl :: rest, d =>
    match d with
    | d2 :: ds => if dl = d2 then runDepth rest ds else none
    | [] => none
  | _ :: rest, d => runDepth rest d

/-- Well-formed token stream: tokens valid and delimiters balanced. -/
def wfToks (ts : List Tok) : Bool :=
  ts.all wfTok && decide (runDepth ts [] = some [])

/-- Well-formed attribute: valid path, value free of quote, backslash
and newline. -/
def wfAttr (a : Attr) : Bool :=
  validIdentStr a.path && validStrBody a.value

/-- Well-formed field. -/
def wfField (f : FieldD) : Bool :=
  f.attrs.all wfAttr && validIdentStr f.name && validIdentStr f.ty

/-- Well-formed item. -/
def wfItem (it : Item) : Bool :=
  it.attrs.all wfAttr && validIdentStr it.name &&
    match it.body with
    | .unit => true
    | .fields fs => fs.all wfField

/-- Well-formed file. -/
def wfFile (f : File) : Bool :=
  f.attrs.all wfAttr && f.items.all wfItem

/-- Primary expressions: literals and identifiers. -/
def exprIsPrimary : Expr → Bool
  | .lit _ _ => true
  | .var _ _ => true
  | .add _ _ _ => false

/-- Well-formed expression: valid attribute lists and texts everywhere,
left operands of sums primary and attribute free. -/
def wfExpr : Expr → Bool
  | .lit as t => as.all wfAttr && validLitText t
  | .var as s => as.all wfAttr && validIdentStr s
  | .add as l r =>
    as.all wfAttr && exprIsPrimary l && (exprAttrs l).isEmpty && wfExpr l && wfExpr r

/-! ## Canonical token renderings of parsed forms -/

/-- Token rendering of an outer attribute. -/
def attrToksOut (a : Attr) : List Tok :=
  [.punct '#', .openT .bracket, .ident a.path, .punct '=',
   .lit (quoteWrap a.value), .closeT .bracket]

/-- Token rendering of an inner attribute. -/
def attrToksIn (a : Attr) : List Tok :=
  [.punct '#', .punct '!', .openT .bracket, .ident a.path, .punct '=',
   .lit (quoteWrap a.value), .closeT .bracket]

/-- Token rendering of a field. -/
def fieldToks (f : FieldD) : List Tok :=
  (f.attrs.map attrToksOut).flatten ++ [.ident f.name, .punct ':', .ident f.ty, .punct ',']

/-- Token rendering of an item. -/
def itemToks (it : Item) : List Tok :=
  (it.attrs.map attrToksOut).flatten ++
    match it.body with
    | .unit => [.ident "struct", .ident it.name, .punct ';']
    | .fields fs =>
      [.ident "struct", .ident it.name, .openT .brace] ++ (fs.map fieldToks).flatten ++
        [.closeT .brace]

/-- Token rendering of a file. -/
def fileToks (f : File) : List Tok :=
  (f.attrs.map attrToksIn).flatten ++ (f.items.map itemToks).flatten

/-- Token rendering of an expression, attributes at every node. -/
def exprToks : Expr → List Tok
  | .lit as t => (as.map attrToksOut).flatten ++ [.lit t]
  | .var as s => (as.map attrToksOut).flatten ++ [.ident s]
  | .add as l r =>
    (as.map attrToksOut).flatten ++ exprToks l ++ .punct '+' :: exprToks r

/-! ## Concrete example streams used by witnesses -/

/-- Tokens of: struct Foo; -/
def exFoo : List Tok := [.ident "struct", .ident "Foo", .punct ';']

/-- Tokens of: struct Bar; -/
def exBar : List Tok := [.ident "struct", .ident "Bar", .punct ';']

/-- Tokens of: struct MyStruct with one field, as in the snapshot tests. -/
def exMyStruct : List Tok :=
  [.ident "struct", .ident "MyStruct", .openT .brace,
   .ident "field", .punct ':', .ident "i32", .punct ',', .closeT .brace]

/-- Tokens of the doc attribute produced by the comment: three slashes
followed by a space and the words This is a struct. -/
def exDocAttrStruct : List Tok :=
  [.punct '#', .openT .bracket, .ident "doc", .punct '=',
   .lit "\" This is a struct\"", .closeT .bracket]

/-- Tokens of the documented MyStruct, as in the snapshot tests. -/
def exMyStructDoc : List Tok :=
  exDocAttrStruct ++
  [.ident "struct", .ident "MyStruct", .openT .brace,
   .punct '#', .openT .bracket, .ident "doc", .punct '=',
   .lit "\" This is a field\"", .closeT .bracket,
   .ident "field", .punct ':', .ident "i32", .punct ',', .closeT .brace]

/-- Tokens of: Vec < u8 >, which parses at neither structural tier. -/
def exVec : List Tok := [.ident "Vec", .punct '<', .ident "u8", .punct '>']

/-- Tokens of: 1 + 2. -/
def exOnePlusTwo : List Tok := [.lit "1", .punct '+', .lit "2"]

/-- Tokens of a lone inner doc attribute, the desugaring of a line
comment with two slashes and an exclamation mark. -/
def exInnerDoc : List Tok :=
  [.punct '#', .punct '!', .openT .bracket, .ident "doc", .punct '=',
   .lit "\"x\"", .closeT .bracket]

/-- Tokens of a documented expression: a doc attribute then 1. -/
def exDocOne : List Tok :=
  [.punct '#', .openT .bracket, .ident "doc", .punct '=', .lit "\"d\"",
   .closeT .bracket, .lit "1"]

/-- Tokens of the bare expression 1. -/
def exOne : List Tok := [.lit "1"]

/-! ## Shared helper lemmas -/

/-- The pair instance of remove_docs_if acts componentwise. -/
theorem remove_docs_if_pair {α : Type} [RemovableDocs α] (x y : α) (b : Bool) :
    remove_docs_if (x, y) b = (remove_docs_if x b, remove_docs_if y b) := by
  cases b <;> rfl

/-- The pair instance of remove_docs acts componentwise. -/
theorem remove_docs_pair {α : Type} [RemovableDocs α] (x y : α) :
    RemovableDocs.remove_docs (x, y) =
      (RemovableDocs.remove_docs x, RemovableDocs.remove_docs y) := rfl

/-! ## The Source Patch Engine (modelled from the spec) -/

/-- Split a character list into its lines at newline characters. -/
def splitLines : List Char → List (List Char)
  | [] => [[]]
  | '\n' :: rest => [] :: splitLines rest
  | c :: rest =>
    match splitLines rest with
    | l :: ls => (c :: l) :: ls
    | [] => [[c]]

/-- Drop leading and trailing whitespace. -/
def trimBoth (s : String) : String :=
  String.mk (((s.data.dropWhile Char.isWhitespace).reverse.dropWhile
    Char.isWhitespace).reverse)

/-- An indentation string of the given width. -/
def mkIndent (n : Nat) : String := String.mk (List.replicate n ' ')

/-- Re-indent every line of the trimmed content. -/
def indentLines (ind : String) (content : String) : String :=
  strJoin ((splitLines (trimBoth content).data).map
    (fun l => ind ++ String.mk l ++ "\n"))

/-- Modelled from the spec, section 4.3 steps 2 and 3: the textual form
of a token-shaped inline placeholder literal, compact for single-line
content, expanded with re-indented lines and an aligned closing
delimiter for multi-line content. -/
def renderPlaceholderLit (indentCol : Nat) (content : String) : String :=
  if strContains content '\n' then
    "@\x7b\n" ++ indentLines (mkIndent (indentCol + 4)) content ++
      mkIndent indentCol ++ "\x7d"
  else "@\x7b " ++ trimBoth content ++ " \x7d"

/-- Replace a character span of the file text. -/
def spliceStr (fileText : String) (start len : Nat) (replacement : String) : String :=
  String.mk (fileText.data.take start ++ replacement.data ++
    fileText.data.drop (start + len))

/-- Modelled from the spec, section 4.3: the Source Patch Engine for a
token-shaped inline placeholder.  The engine itself lives in cargo-insta,
which is not under src/, so it is modelled from the spec here: tokenize
the captured content and the new content; when they are semantically
equal per tokens_equal the file is reported unchanged, otherwise the
newly rendered literal is spliced over the placeholder span.  Captured
content that fails to tokenize is a fatal error. -/
def applyInlinePatch (s : Settings) (fileText : String)
    (start len indentCol : Nat) (captured newContent : String) : Option String :=
  match tokenize captured, tokenize newContent with
  | some a, some b =>
    if tokens_equal s a b then some fileText
    else some (spliceStr fileText start len (renderPlaceholderLit indentCol newContent))
  | _, _ => none

/-! ## C1: the three-tier comparison algorithm -/

/-- C1: tokens_equal follows the three-tier algorithm: when both streams
parse as complete units it returns deep structural equality of the
parsed files after doc-stripping per the setting; otherwise, when both
parse as expressions, structural equality of the expressions under the
same policy; otherwise equality of the canonical textual renderings,
with no doc stripping on that path. -/
theorem tokens_equal_three_tier (s : Settings) (a b : List Tok) :
    (∀ fa fb, parseFile a = some fa → parseFile b = some fb →
      tokens_equal s a b =
        decide (remove_docs_if fa s.ignore_docs_for_tokens
              = remove_docs_if fb s.ignore_docs_for_tokens)) ∧
    ((parseFile a = none ∨ parseFile b = none) →
      ∀ ea eb, parseExpr a = some ea → parseExpr b = some eb →
      tokens_equal s a b =
        decide (remove_docs_if ea s.ignore_docs_for_tokens
              = remove_docs_if eb s.ignore_docs_for_tokens)) ∧
    ((parseFile a = none ∨ parseFile b = none) →
      (parseExpr a = none ∨ parseExpr b = none) →
      tokens_equal s a b = decide (tsToString a = tsToString b)) := by
  refine ⟨?_, ?_, ?_⟩
  · intro fa fb ha hb
    simp only [tokens_equal, ha, hb, remove_docs_if_pair]
  · rintro (h | h) ea eb hea heb <;>
      (simp only [tokens_equal, h, hea, heb, remove_docs_if_pair]
       try (cases hpa : parseFile a <;> cases hpb : parseFile b <;>
         simp_all [tokens_equal]))
  · rintro (h | h) (h2 | h2) <;>
      (simp only [tokens_equal, h, h2]
       try (cases hpa : parseFile a <;> cases hpb : parseFile b <;>
         cases hea : parseExpr a <;> cases heb : parseExpr b <;> simp_all [tokens_equal]))

/-- C1 witness: the three tiers exercised at concrete streams: the
documented struct against the bare struct at the file tier, a documented
literal against a bare literal at the expression tier, and the Vec angle
bracket fragment against itself at the textual tier. -/
theorem tokens_equal_three_tier_witness :
    tokens_equal defaultSettings exMyStructDoc exMyStruct = true ∧
    tokens_equal defaultSettings exDocOne exOne = true ∧
    tokens_equal defaultSettings exVec exVec = true :=
  ⟨((tokens_equal_three_tier defaultSettings exMyStructDoc exMyStruct).1 _ _
      rfl rfl).trans (by decide),
   ((tokens_equal_three_tier defaultSettings exDocOne exOne).2.1 (Or.inl rfl) _ _
      rfl rfl).trans (by decide),
   ((tokens_equal_three_tier defaultSettings exVec exVec).2.2 (Or.inl rfl)
      (Or.inl rfl)).trans (by decide)⟩

/-! ## C8: formatting disabled gives the raw rendering -/

/-- C8: with the format_tokens setting off, pretty_print returns the
canonical textual rendering of the raw stream unmodified, with no parse
tier attempted and no doc stripping. -/
theorem pretty_print_format_off (s : Settings) (t : List Tok)
    (h : s.format_tokens = false) : pretty_print s t = tsToString t := by
  simp [pretty_print, h]

/-- C8 witness, on the struct stream of the snapshot test for disabled
formatting. -/
theorem pretty_print_format_off_witness :
    pretty_print ⟨false, true⟩ exMyStruct = tsToString exMyStruct :=
  pretty_print_format_off _ _ rfl

/-! ## C9: totality of pretty_print -/

/-- C9: pretty_print is a total function, and when both the complete-unit
tier and the expression tier fail it returns the raw rendering, for any
settings state; the raw rendering is the universal safety net. -/
theorem pretty_print_total_fallback (s : Settings) (t : List Tok)
    (h1 : parseFile t = none) (h2 : parseExpr t = none) :
    pretty_print s t = tsToString t := by
  cases hf : s.format_tokens <;> simp [pretty_print, h1, h2, hf]

/-- C9 witness, on the Vec angle bracket fragment that parses at neither
tier. -/
theorem pretty_print_total_fallback_witness :
    pretty_print defaultSettings exVec = tsToString exVec :=
  pretty_print_total_fallback _ _ rfl rfl

/-! ## C5: the inline wrapper -/

/-- C5: when the pretty printed form contains a newline,
pretty_print_for_inline wraps it in a leading newline and a trailing
newline around the trailing-whitespace-trimmed content; single-line
output passes through unchanged. -/
theorem pretty_print_for_inline_spec (s : Settings) (t : List Tok) :
    (strContains (pretty_print s t) '\n' = true →
      pretty_print_for_inline s t = "\n" ++ trimEnd (pretty_print s t) ++ "\n") ∧
    (strContains (pretty_print s t) '\n' = false →
      pretty_print_for_inline s t = pretty_print s t) := by
  constructor <;> intro h <;> simp [pretty_print_for_inline, h]

/-- C5 witness: the struct stream produces a newline-bearing rendering
and is wrapped; the expression 1 + 2 renders on one line and passes
through. -/
theorem pretty_print_for_inline_spec_witness :
    (strContains (pretty_print defaultSettings exFoo) '\n' = true ∧
      pretty_print_for_inline defaultSettings exFoo =
        "\n" ++ trimEnd (pretty_print defaultSettings exFoo) ++ "\n") ∧
    (strContains (pretty_print defaultSettings exOnePlusTwo) '\n' = false ∧
      pretty_print_for_inline defaultSettings exOnePlusTwo =
        pretty_print defaultSettings exOnePlusTwo) :=
  ⟨⟨by decide, (pretty_print_for_inline_spec defaultSettings exFoo).1 (by decide)⟩,
   ⟨by decide, (pretty_print_for_inline_spec defaultSettings exOnePlusTwo).2 (by decide)⟩⟩

/-! ## C4: doc-only differences -/

/-- C4: for streams that differ only in documentation attributes and
parse at the same structural tier, tokens_equal is true exactly when the
ignore_docs_for_tokens setting is enabled. -/
theorem tokens_equal_doc_only_difference (fmt : Bool) (a b : List Tok)
    (h : (∃ fa fb, parseFile a = some fa ∧ parseFile b = some fb ∧
            RemovableDocs.remove_docs fa = RemovableDocs.remove_docs fb ∧ fa ≠ fb) ∨
         ((parseFile a = none ∨ parseFile b = none) ∧
          ∃ ea eb, parseExpr a = some ea ∧ parseExpr b = some eb ∧
            RemovableDocs.remove_docs ea = RemovableDocs.remove_docs eb ∧ ea ≠ eb)) :
    tokens_equal ⟨fmt, true⟩ a b = true ∧ tokens_equal ⟨fmt, false⟩ a b = false := by
  rcases h with ⟨fa, fb, ha, hb, hstrip, hne⟩ | ⟨hn, ea, eb, hea, heb, hstrip, hne⟩
  · constructor <;>
      simp [tokens_equal, ha, hb, remove_docs_pair, remove_docs_if, hstrip, hne]
  · rcases hn with hn | hn <;> constructor <;>
      (cases hpa : parseFile a <;> cases hpb : parseFile b <;>
        simp_all [tokens_equal, remove_docs_pair, remove_docs_if, hstrip, hne])

/-- C4 witness: the documented struct stream against the plain struct
stream from the snapshot tests. -/
theorem tokens_equal_doc_only_difference_witness :
    tokens_equal ⟨true, true⟩ exMyStructDoc exMyStruct = true ∧
    tokens_equal ⟨true, false⟩ exMyStructDoc exMyStruct = false :=
  tokens_equal_doc_only_difference true _ _
    (Or.inl ⟨_, _, rfl, rfl, by decide, by decide⟩)

/-! ## C2: patch engine idempotence -/

/-- C2: when the captured placeholder content is semantically equal per
tokens_equal to the newly rendered content, the Source Patch Engine
reports the file unchanged, byte for byte. -/
theorem patch_engine_idempotent (s : Settings) (fileText : String)
    (start len indentCol : Nat) (captured newContent : String)
    (a b : List Tok)
    (ha : tokenize captured = some a) (hb : tokenize newContent = some b)
    (heq : tokens_equal s a b = true) :
    applyInlinePatch s fileText start len indentCol captured newContent =
      some fileText := by
  simp [applyInlinePatch, ha, hb, heq]

/-- C2 witness: captured and new content differing only in whitespace
around the same struct tokens leave the file untouched. -/
theorem patch_engine_idempotent_witness :
    applyInlinePatch defaultSettings
      "    insta::assert_token_snapshot!(tokens, @\x7b struct Foo \x7b x: i32 \x7d \x7d);"
      46 26 4 "struct Foo \x7b x: i32 \x7d" "struct    Foo   \x7b x :  i32 \x7d" =
      some "    insta::assert_token_snapshot!(tokens, @\x7b struct Foo \x7b x: i32 \x7d \x7d);" :=
  patch_engine_idempotent _ _ _ _ _ _ _ _ _ rfl rfl (by decide)

/-! ## C10: doc removal is complete and idempotent -/

/-- Attribute lists free of doc attributes. -/
def noDocAttrs (attrs : List Attr) : Bool :=
  attrs.all (fun a => !(a.path = "doc" : Bool))

/-- Items free of doc attributes at every depth. -/
def itemNoDocs (it : Item) : Bool :=
  noDocAttrs it.attrs &&
    match it.body with
    | .unit => true
    | .fields fs => fs.all (fun fd => noDocAttrs fd.attrs)

/-- Files free of doc attributes at every depth. -/
def fileNoDocs (f : File) : Bool :=
  noDocAttrs f.attrs && f.items.all itemNoDocs

/-- Expressions free of doc attributes at every depth. -/
def exprNoDocs : Expr → Bool
  | .lit as _ => noDocAttrs as
  | .var as _ => noDocAttrs as
  | .add as l r => noDocAttrs as && exprNoDocs l && exprNoDocs r

/-- Filtering doc attributes leaves no doc attribute. -/
theorem noDocAttrs_removeDocAttrs (as : List Attr) :
    noDocAttrs (removeDocAttrs as) = true := by
  induction as with
  | nil => rfl
  | cons a as ih =>
    by_cases h : a.path = "doc" <;>
      simp_all [noDocAttrs, removeDocAttrs, List.filter]

/-- Filtering doc attributes is idempotent. -/
theorem removeDocAttrs_idem (as : List Attr) :
    removeDocAttrs (removeDocAttrs as) = removeDocAttrs as := by
  induction as with
  | nil => rfl
  | cons a as ih =>
    by_cases h : a.path = "doc" <;>
      simp_all [removeDocAttrs, List.filter]

/-- Doc removal on an item is complete. -/
theorem itemNoDocs_remove (it : Item) :
    itemNoDocs it.remove_docs_at = true := by
  cases it with
  | mk attrs name body =>
    cases body with
    | unit => simp [Item.remove_docs_at, itemNoDocs, StructBody.remove_docs_at,
        noDocAttrs_removeDocAttrs]
    | fields fs =>
      simp [Item.remove_docs_at, itemNoDocs, StructBody.remove_docs_at,
        noDocAttrs_removeDocAttrs, List.all_eq_true]
      intro fd hfd
      simp [FieldD.remove_docs_at, noDocAttrs_removeDocAttrs]

/-- Doc removal on an item is idempotent. -/
theorem item_remove_idem (it : Item) :
    it.remove_docs_at.remove_docs_at = it.remove_docs_at := by
  cases it with
  | mk attrs name body =>
    cases body with
    | unit => simp [Item.remove_docs_at, StructBody.remove_docs_at, removeDocAttrs_idem]
    | fields fs =>
      simp [Item.remove_docs_at, StructBody.remove_docs_at, removeDocAttrs_idem,
        Function.comp, FieldD.remove_docs_at]

/-- C10: the DocRemover pass leaves no doc attribute at any nesting
depth of a parsed file or expression, and applying it twice equals
applying it once. -/
theorem doc_removal_complete_idempotent (f : File) (e : Expr) :
    fileNoDocs (RemovableDocs.remove_docs f) = true ∧
    RemovableDocs.remove_docs (RemovableDocs.remove_docs f) =
      RemovableDocs.remove_docs f ∧
    exprNoDocs (RemovableDocs.remove_docs e) = true ∧
    RemovableDocs.remove_docs (RemovableDocs.remove_docs e) =
      RemovableDocs.remove_docs e := by
  refine ⟨?_, ?_, ?_, ?_⟩
  · simp [RemovableDocs.remove_docs, fileNoDocs, noDocAttrs_removeDocAttrs,
      List.all_eq_true]
    intro it hit
    exact itemNoDocs_remove it
  · simp [RemovableDocs.remove_docs, removeDocAttrs_idem, Function.comp,
      item_remove_idem]
  · show exprNoDocs e.removeDocsE = true
    induction e with
    | lit as t => simp [Expr.removeDocsE, exprNoDocs, noDocAttrs_removeDocAttrs]
    | var as s => simp [Expr.removeDocsE, exprNoDocs, noDocAttrs_removeDocAttrs]
    | add as l r ihl ihr =>
      simp [Expr.removeDocsE, exprNoDocs, noDocAttrs_removeDocAttrs, ihl, ihr]
  · show (e.removeDocsE).removeDocsE = e.removeDocsE
    induction e with
    | lit as t => simp [Expr.removeDocsE, removeDocAttrs_idem]
    | var as s => simp [Expr.removeDocsE, removeDocAttrs_idem]
    | add as l r ihl ihr => simp [Expr.removeDocsE, removeDocAttrs_idem, ihl, ihr]

/-! ## C6: the trailing newline of formatter output -/

/-- A string whose final character is a newline. -/
def strEndsWithNl (s : String) : Bool := decide (s.data.getLast? = some '\n')

/-- String append acts as append on the character lists. -/
theorem strData_append (a b : String) : (a ++ b).data = a.data ++ b.data := rfl

/-- Append keeps a trailing newline of the right part. -/
theorem endsNl_append (a b : String) (h : strEndsWithNl b = true) :
    strEndsWithNl (a ++ b) = true := by
  have hne : b.data ≠ [] := by
    intro hd
    simp [strEndsWithNl, hd] at h
  simp only [strEndsWithNl, strData_append, decide_eq_true_eq] at *
  rw [List.getLast?_append_of_ne_nil _ hne]
  exact h

/-- Outer attribute lines end with a newline. -/
theorem endsNl_attrTextOut (ind : String) (a : Attr) :
    strEndsWithNl (attrTextOut ind a) = true := by
  by_cases h : a.path = "doc" <;>
    simp [attrTextOut, h] <;> apply endsNl_append <;> decide

/-- Inner attribute lines end with a newline. -/
theorem endsNl_attrTextIn (a : Attr) :
    strEndsWithNl (attrTextIn a) = true := by
  by_cases h : a.path = "doc" <;>
    simp [attrTextIn, h] <;> apply endsNl_append <;> decide

/-- Item text ends with a newline. -/
theorem endsNl_itemText (it : Item) : strEndsWithNl (itemText it) = true := by
  apply endsNl_append
  cases it.body <;> (apply endsNl_append; decide)

/-- A nonempty join of newline-terminated strings is newline
terminated. -/
theorem endsNl_strJoinMap {α : Type} (f : α → String) (l : List α)
    (hf : ∀ x ∈ l, strEndsWithNl (f x) = true) (hl : l ≠ []) :
    strEndsWithNl (strJoin (l.map f)) = true := by
  induction l with
  | nil => exact absurd rfl hl
  | cons x xs ih =>
    cases xs with
    | nil =>
      show strEndsWithNl (f x ++ "") = true
      have hx : f x ++ "" = f x := by
        apply String.ext
        simp [strData_append]
      rw [hx]
      exact hf x (by simp)
    | cons y ys =>
      show strEndsWithNl (f x ++ strJoin ((y :: ys).map f)) = true
      exact endsNl_append _ _ (ih (fun z hz => hf z (List.mem_cons_of_mem _ hz)) (by simp))

/-- The model formatter terminates every nonempty file with a
newline. -/
theorem unparse_ends_nl (f : File) (h : f ≠ ⟨[], []⟩) :
    strEndsWithNl (unparse f) = true := by
  cases f with
  | mk attrs items =>
    cases items with
    | nil =>
      cases attrs with
      | nil => exact absurd rfl h
      | cons a as =>
        have hu : unparse ⟨a :: as, []⟩ = strJoin ((a :: as).map attrTextIn) := by
          apply String.ext
          simp [unparse, strData_append, strJoin]
        rw [hu]
        exact endsNl_strJoinMap _ _ (fun x hx => endsNl_attrTextIn x) (by simp)
    | cons it its =>
      exact endsNl_append _ _
        (endsNl_strJoinMap _ _ (fun x hx => endsNl_itemText x) (by simp))

/-- C6 counterexample: the claim says the complete-unit output of
pretty_print does not end with a trailing newline; in the code the
formatter output is returned without any trimming, so on the stream of
struct Foo with the default settings the result does end with a
newline. -/
theorem pretty_print_trailing_newline_cex :
    parseFile exFoo = some ⟨[], [⟨[], "Foo", .unit⟩]⟩ ∧
    defaultSettings.format_tokens = true ∧
    strEndsWithNl (pretty_print defaultSettings exFoo) = true := by
  refine ⟨rfl, rfl, ?_⟩
  decide

/-- C6 amended: on the complete-unit tier with formatting enabled,
pretty_print returns the formatter output unmodified, so the result
ends with a trailing newline whenever the doc-stripped file is
nonempty; no trimming is performed in pretty_print, the trailing trim
happens only inside pretty_print_for_inline. -/
theorem pretty_print_file_tier_output (s : Settings) (t : List Tok) (f : File)
    (hf : parseFile t = some f) (hfmt : s.format_tokens = true) :
    pretty_print s t = unparse (remove_docs_if f s.ignore_docs_for_tokens) ∧
    (remove_docs_if f s.ignore_docs_for_tokens ≠ ⟨[], []⟩ →
      strEndsWithNl (pretty_print s t) = true) := by
  have h1 : pretty_print s t = unparse (remove_docs_if f s.ignore_docs_for_tokens) := by
    simp [pretty_print, hf, hfmt]
  refine ⟨h1, fun hne => ?_⟩
  rw [h1]
  exact unparse_ends_nl _ hne

/-- C6 amended witness, at the struct Foo stream with default
settings. -/
theorem pretty_print_file_tier_output_witness :
    pretty_print defaultSettings exFoo =
      unparse (remove_docs_if (File.mk [] [Item.mk [] "Foo" StructBody.unit])
        defaultSettings.ignore_docs_for_tokens) ∧
    strEndsWithNl (pretty_print defaultSettings exFoo) = true :=
  ⟨(pretty_print_file_tier_output defaultSettings exFoo _ rfl rfl).1,
   (pretty_print_file_tier_output defaultSettings exFoo _ rfl rfl).2 (by decide)⟩

/-! ## C7: comparisons against the empty stream -/

/-- Streams mapped to some empty item list by the item machine are
empty, established by strong induction on the stream length. -/
theorem parseP_some_nil_aux : ∀ (n : Nat) (ts : List Tok) (st : PSt), ts.length ≤ n →
    parseP ts st = some [] → ts = [] ∧ st = .top [] := by
  intro n
  induction n with
  | zero =>
    intro ts st hlen h
    have hts : ts = [] := List.length_eq_zero.mp (Nat.le_zero.mp hlen)
    subst hts
    cases st with
    | top pend =>
      cases pend with
      | nil => exact ⟨rfl, rfl⟩
      | cons a as => simp [parseP] at h
    | infields ia nm acc pend => simp [parseP] at h
  | succ n ih =>
    intro ts st hlen h
    rw [parseP.eq_def] at h
    split at h
    · exact ⟨rfl, rfl⟩
    · exact absurd h (by simp)
    · rcases hq : unquote _ with _ | body <;> rw [hq] at h
      · exact absurd h (by simp)
      · rcases ih _ _ (by simp at hlen; omega) h with ⟨_, h2⟩
        simp at h2
    · rcases Option.map_eq_some'.mp h with ⟨l, _, hl⟩
      simp at hl
    · rcases ih _ _ (by simp at hlen; omega) h with ⟨_, h2⟩
      simp at h2
    · rcases Option.map_eq_some'.mp h with ⟨l, _, hl⟩
      simp at hl
    · rcases hq : unquote _ with _ | body <;> rw [hq] at h
      · exact absurd h (by simp)
      · rcases ih _ _ (by simp at hlen; omega) h with ⟨_, h2⟩
        simp at h2
    · rcases ih _ _ (by simp at hlen; omega) h with ⟨_, h2⟩
      simp at h2
    · rcases Option.map_eq_some'.mp h with ⟨l, _, hl⟩
      simp at hl
    · exact absurd h (by simp)

/-- Wrapper of the previous lemma without the length bound. -/
theorem parseP_some_nil (ts : List Tok) (st : PSt) (h : parseP ts st = some []) :
    ts = [] ∧ st = .top [] :=
  parseP_some_nil_aux ts.length ts st (Nat.le_refl _) h

/-- Only the empty stream parses to the file with no attributes and no
items. -/
theorem parseFileAux_empty_out (ts : List Tok) (acc : List Attr)
    (h : parseFileAux ts acc = some ⟨[], []⟩) : ts = [] ∧ acc = [] := by
  induction ts, acc using parseFileAux.induct with
  | case1 p v rest acc body hq ih =>
    rcases ih (by simpa [parseFileAux, hq] using h) with ⟨h1, h2⟩
    simp at h2
  | case2 p v rest acc hq => simp_all [parseFileAux]
  | case3 ts acc hne =>
    have h2 : parseP ts (.top []) = some [] ∧ acc = [] := by
      simpa [parseFileAux] using h
    rcases h2 with ⟨hp, rfl⟩
    exact ⟨(parseP_some_nil _ _ hp).1, rfl⟩

/-- Only the empty stream parses to the empty file. -/
theorem parseFile_empty_file (b : List Tok) (h : parseFile b = some ⟨[], []⟩) :
    b = [] :=
  (parseFileAux_empty_out b [] h).1

/-- Well-formed tokens render to nonempty text. -/
theorem tokText_ne_nil (t : Tok) (h : wfTok t = true) : (tokText t).data ≠ [] := by
  cases t with
  | ident s =>
    cases hs : s.data with
    | nil => simp [wfTok, validIdentStr, hs] at h
    | cons c cs => simp [tokText, hs]
  | lit s =>
    cases hs : s.data with
    | nil => simp [wfTok, validLitText, unquote, validNumStr, hs] at h
    | cons c cs => simp [tokText, hs]
  | punct c => simp [tokText]
  | openT d => simp [tokText]
  | closeT d => simp [tokText]

/-- A well-formed stream with empty canonical rendering is empty. -/
theorem tsToString_eq_empty (b : List Tok) (hwf : wfToks b = true)
    (h : tsToString b = "") : b = [] := by
  cases b with
  | nil => rfl
  | cons t rest =>
    exfalso
    have hwt : wfTok t = true := by
      simp [wfToks, List.all_cons] at hwf
      exact hwf.1.1
    cases rest with
    | nil => exact tokText_ne_nil t hwt (congrArg String.data h)
    | cons u rs =>
      have h2 : (tokText t).data ++ (sepStr t u ++ tsToString (u :: rs)).data = [] := by
        have h3 := congrArg String.data h
        simpa [tsToString, strData_append] using h3
      rcases List.append_eq_nil.mp h2 with ⟨h1, _⟩
      exact tokText_ne_nil t hwt h1

/-- C7 counterexample: under the default settings the empty stream
compares equal to the nonempty stream holding one inner doc attribute,
because both parse as files whose doc-stripped form is the empty file;
so an empty token tree does not compare equal only to another empty
tree. -/
theorem tokens_equal_empty_only_cex :
    tokens_equal defaultSettings [] exInnerDoc = true ∧ exInnerDoc ≠ [] := by
  constructor
  · decide
  · decide

/-- C7 amended: with the doc-stripping setting disabled, the empty
token stream compares equal exactly to the empty stream, over
well-formed streams; with it enabled the empty stream additionally
compares equal to streams of inner doc attributes, as the
counterexample shows. -/
theorem tokens_equal_empty_iff (fmt : Bool) (b : List Tok) (hwf : wfToks b = true) :
    tokens_equal ⟨fmt, false⟩ [] b = true ↔ b = [] := by
  constructor
  · intro h
    have hnil : parseFile ([] : List Tok) = some ⟨[], []⟩ := rfl
    cases hb : parseFile b with
    | some fb =>
      have hd : (⟨[], []⟩ : File) = fb := by
        simpa [tokens_equal, hnil, hb, remove_docs_if] using h
      exact parseFile_empty_file b (hb.trans (by rw [← hd]))
    | none =>
      have hne : parseExpr ([] : List Tok) = none := rfl
      have hd : tsToString ([] : List Tok) = tsToString b := by
        simpa [tokens_equal, hnil, hb, hne] using h
      exact tsToString_eq_empty b hwf hd.symm
  · rintro rfl
    rfl

/-- C7 amended witness: the empty stream equals itself and differs from
the struct Foo stream under disabled doc stripping. -/
theorem tokens_equal_empty_iff_witness :
    tokens_equal ⟨true, false⟩ [] [] = true ∧
    tokens_equal ⟨true, false⟩ [] exFoo ≠ true :=
  ⟨(tokens_equal_empty_iff true [] (by decide)).mpr rfl,
   fun hb => by
     simpa [exFoo] using (tokens_equal_empty_iff true exFoo (by decide)).mp hb⟩

/-! ## Parser inverse lemmas: the canonical token rendering of a parsed
form parses back to it -/

theorem unquote_quoteWrap (v : String) : unquote (quoteWrap v) = some v := by
  have hd : (quoteWrap v).data = '"' :: (v.data ++ ['"']) := by
    simp [quoteWrap, strData_append]
  unfold unquote
  rw [hd]
  simp

theorem parseP_attr_top (a : Attr) (rest : List Tok) (pend : List Attr) :
    parseP (attrToksOut a ++ rest) (.top pend) = parseP rest (.top (pend ++ [a])) := by
  simp [attrToksOut, parseP, unquote_quoteWrap]

theorem parseP_attrs_top (as : List Attr) (rest : List Tok) (pend : List Attr) :
    parseP ((as.map attrToksOut).flatten ++ rest) (.top pend) =
      parseP rest (.top (pend ++ as)) := by
  induction as generalizing pend with
  | nil => simp
  | cons a as ih =>
    simp only [List.map_cons, List.flatten_cons, List.append_assoc]
    rw [parseP_attr_top, ih]
    simp

theorem parseP_attr_infields (a : Attr) (rest : List Tok) (ia : List Attr)
    (n : String) (acc : List FieldD) (pend : List Attr) :
    parseP (attrToksOut a ++ rest) (.infields ia n acc pend) =
      parseP rest (.infields ia n acc (pend ++ [a])) := by
  simp [attrToksOut, parseP, unquote_quoteWrap]

theorem parseP_attrs_infields (as : List Attr) (rest : List Tok) (ia : List Attr)
    (n : String) (acc : List FieldD) (pend : List Attr) :
    parseP ((as.map attrToksOut).flatten ++ rest) (.infields ia n acc pend) =
      parseP rest (.infields ia n acc (pend ++ as)) := by
  induction as generalizing pend with
  | nil => simp
  | cons a as ih =>
    simp only [List.map_cons, List.flatten_cons, List.append_assoc]
    rw [parseP_attr_infields, ih]
    simp

theorem parseP_field (f : FieldD) (rest : List Tok) (ia : List Attr)
    (n : String) (acc : List FieldD) :
    parseP (fieldToks f ++ rest) (.infields ia n acc []) =
      parseP rest (.infields ia n (f :: acc) []) := by
  cases f with
  | mk fattrs fname fty =>
    simp only [fieldToks, List.append_assoc]
    rw [parseP_attrs_infields]
    simp [parseP]

theorem parseP_fields (fs : List FieldD) (rest : List Tok) (ia : List Attr)
    (n : String) (acc : List FieldD) :
    parseP ((fs.map fieldToks).flatten ++ rest) (.infields ia n acc []) =
      parseP rest (.infields ia n (fs.reverse ++ acc) []) := by
  induction fs generalizing acc with
  | nil => simp
  | cons f fs ih =>
    simp only [List.map_cons, List.flatten_cons, List.append_assoc]
    rw [parseP_field, ih]
    simp

theorem parseP_item (it : Item) (rest : List Tok) :
    parseP (itemToks it ++ rest) (.top []) = (parseP rest (.top [])).map (it :: ·) := by
  cases it with
  | mk iattrs iname ibody =>
    cases ibody with
    | unit =>
      simp only [itemToks, List.append_assoc]
      rw [parseP_attrs_top]
      simp [parseP]
    | fields fs =>
      simp only [itemToks, List.append_assoc]
      rw [parseP_attrs_top]
      simp only [List.nil_append]
      show parseP (.ident "struct" :: .ident iname :: .openT .brace ::
          ((fs.map fieldToks).flatten ++ (.closeT .brace :: rest))) (.top iattrs) =
        (parseP rest (.top [])).map (⟨iattrs, iname, .fields fs⟩ :: ·)
      have h1 : parseP (.ident "struct" :: .ident iname :: .openT .brace ::
          ((fs.map fieldToks).flatten ++ (.closeT .brace :: rest))) (.top iattrs) =
          parseP ((fs.map fieldToks).flatten ++ (.closeT .brace :: rest))
            (.infields iattrs iname [] []) := by
        simp [parseP]
      rw [h1, parseP_fields]
      simp [parseP]

theorem parseP_items (items : List Item) :
    parseP ((items.map itemToks).flatten) (.top []) = some items := by
  induction items with
  | nil => rfl
  | cons it more ih =>
    have h2 : (itemToks it ++ (more.map itemToks).flatten) =
        ((it :: more).map itemToks).flatten := by simp
    rw [← h2, parseP_item, ih]
    rfl

def innerAttrStart : List Tok → Bool
  | .punct '#' :: .punct '!' :: .openT .bracket :: .ident _ :: .punct '=' :: .lit _ ::
      .closeT .bracket :: _ => true
  | _ => false

theorem parseFileAux_not_inner (ts : List Tok) (acc : List Attr)
    (h : innerAttrStart ts = false) :
    parseFileAux ts acc = (parseP ts (.top [])).map (fun items => ⟨acc, items⟩) := by
  rw [parseFileAux.eq_def]
  split
  · simp [innerAttrStart] at h
  · rfl

theorem parseFileAux_inner (a : Attr) (rest : List Tok) (acc : List Attr) :
    parseFileAux (attrToksIn a ++ rest) acc = parseFileAux rest (acc ++ [a]) := by
  simp [attrToksIn, parseFileAux, unquote_quoteWrap]

theorem parseFileAux_inners (as : List Attr) (rest : List Tok) (acc : List Attr) :
    parseFileAux ((as.map attrToksIn).flatten ++ rest) acc =
      parseFileAux rest (acc ++ as) := by
  induction as generalizing acc with
  | nil => simp
  | cons a as ih =>
    simp only [List.map_cons, List.flatten_cons, List.append_assoc]
    rw [parseFileAux_inner, ih]
    simp

theorem innerAttrStart_itemsToks (items : List Item) :
    innerAttrStart ((items.map itemToks).flatten) = false := by
  cases items with
  | nil => rfl
  | cons it more =>
    cases it with
    | mk iattrs iname ibody =>
      cases iattrs with
      | nil => cases ibody <;> simp [itemToks, innerAttrStart]
      | cons a as => simp [itemToks, attrToksOut, innerAttrStart]

theorem parseFile_fileToks (f : File) : parseFile (fileToks f) = some f := by
  cases f with
  | mk fattrs fitems =>
    show parseFileAux ((fattrs.map attrToksIn).flatten ++ (fitems.map itemToks).flatten) []
      = some ⟨fattrs, fitems⟩
    rw [parseFileAux_inners, parseFileAux_not_inner _ _ (innerAttrStart_itemsToks fitems),
      parseP_items]
    simp

theorem parseExpr_attr (a : Attr) (rest : List Tok) :
    parseExpr (attrToksOut a ++ rest) = (parseExpr rest).map (withAttrCons a) := by
  simp [attrToksOut, parseExpr, unquote_quoteWrap]

theorem parseExpr_attrs (as : List Attr) (rest : List Tok) :
    parseExpr ((as.map attrToksOut).flatten ++ rest) =
      (parseExpr rest).map (fun e => as.foldr withAttrCons e) := by
  induction as with
  | nil => simp
  | cons a as ih =>
    simp only [List.map_cons, List.flatten_cons, List.append_assoc]
    rw [parseExpr_attr, ih]
    cases parseExpr rest <;> simp

theorem foldr_withAttrCons_lit (as : List Attr) (t : String) :
    as.foldr withAttrCons (Expr.lit [] t) = .lit as t := by
  induction as with
  | nil => rfl
  | cons a as ih => simp [ih, withAttrCons]

theorem foldr_withAttrCons_var (as : List Attr) (s : String) :
    as.foldr withAttrCons (Expr.var [] s) = .var as s := by
  induction as with
  | nil => rfl
  | cons a as ih => simp [ih, withAttrCons]

theorem foldr_withAttrCons_add (as : List Attr) (l r : Expr) :
    as.foldr withAttrCons (Expr.add [] l r) = .add as l r := by
  induction as with
  | nil => rfl
  | cons a as ih => simp [ih, withAttrCons]

theorem parseExpr_exprToks (e : Expr) (hwf : wfExpr e = true) :
    parseExpr (exprToks e) = some e := by
  induction e with
  | lit as t =>
    show parseExpr ((as.map attrToksOut).flatten ++ [.lit t]) = _
    rw [parseExpr_attrs]
    simp [parseExpr, foldr_withAttrCons_lit]
  | var as s =>
    show parseExpr ((as.map attrToksOut).flatten ++ [.ident s]) = _
    rw [parseExpr_attrs]
    simp [parseExpr, foldr_withAttrCons_var]
  | add as l r ihl ihr =>
    simp only [wfExpr, Bool.and_eq_true] at hwf
    obtain ⟨⟨⟨⟨ha, hprim⟩, hlattrs⟩, hwl⟩, hwr⟩ := hwf
    have hshape : exprToks (Expr.add as l r) =
        (as.map attrToksOut).flatten ++ (exprToks l ++ .punct '+' :: exprToks r) := by
      simp [exprToks, List.append_assoc]
    rw [hshape, parseExpr_attrs]
    cases l with
    | lit las t =>
      have hl0 : las = [] := by simpa [exprAttrs] using hlattrs
      subst hl0
      have hstep : parseExpr (exprToks (Expr.lit [] t) ++ .punct '+' :: exprToks r) =
          (parseExpr (exprToks r)).map (.add [] (.lit [] t) ·) := by
        show parseExpr (.lit t :: .punct '+' :: exprToks r) = _
        simp [parseExpr]
      rw [hstep, ihr hwr]
      simp [foldr_withAttrCons_add]
    | var las s =>
      have hl0 : las = [] := by simpa [exprAttrs] using hlattrs
      subst hl0
      have hstep : parseExpr (exprToks (Expr.var [] s) ++ .punct '+' :: exprToks r) =
          (parseExpr (exprToks r)).map (.add [] (.var [] s) ·) := by
        show parseExpr (.ident s :: .punct '+' :: exprToks r) = _
        simp [parseExpr]
      rw [hstep, ihr hwr]
      simp [foldr_withAttrCons_add]
    | add las ll lr => simp [exprIsPrimary] at hprim

/-! ## Well-formedness preservation through parsing and doc removal -/

theorem validLitText_unquote (v body : String) (hq : unquote v = some body)
    (hv : validLitText v = true) : validStrBody body = true := by
  simpa [validLitText, hq] using hv

def pstWfB : PSt → Bool
  | .top pend => pend.all wfAttr
  | .infields ia n acc pend =>
    ia.all wfAttr && validIdentStr n && acc.all wfField && pend.all wfAttr

theorem parseP_wf_aux : ∀ (n : Nat) (ts : List Tok) (st : PSt), ts.length ≤ n →
    ts.all wfTok = true → pstWfB st = true →
    ∀ items, parseP ts st = some items → items.all wfItem = true := by
  intro n
  induction n with
  | zero =>
    intro ts st hlen hwt hst items h
    have hts : ts = [] := List.length_eq_zero.mp (Nat.le_zero.mp hlen)
    subst hts
    cases st with
    | top pend =>
      cases pend with
      | nil =>
        simp [parseP] at h
        subst h
        rfl
      | cons a as => simp [parseP] at h
    | infields ia nm acc pend => simp [parseP] at h
  | succ n ih =>
    intro ts st hlen hwt hst items h
    rw [parseP.eq_def] at h
    split at h
    · cases h
      rfl
    · exact absurd h (by simp)
    · rcases hq : unquote _ with _ | body <;> rw [hq] at h
      · exact absurd h (by simp)
      · simp only [List.all_cons, List.length_cons, wfTok, Bool.and_eq_true] at hwt hlen
        have hvb := validLitText_unquote _ _ hq (by tauto)
        refine ih _ _ (by omega) (by tauto) ?_ _ h
        simp only [pstWfB, List.all_append, List.all_cons, List.all_nil, wfAttr,
          Bool.and_eq_true, and_true, true_and] at hst ⊢
        tauto
    · rcases Option.map_eq_some'.mp h with ⟨items2, hi, rfl⟩
      simp only [List.all_cons, List.length_cons, wfTok, Bool.and_eq_true] at hwt hlen
      simp only [pstWfB] at hst
      simp only [List.all_cons, Bool.and_eq_true, wfItem, and_true]
      exact ⟨⟨hst, by tauto⟩, ih _ _ (by omega) (by tauto) (by simp [pstWfB]) _ hi⟩
    · simp only [List.all_cons, List.length_cons, wfTok, Bool.and_eq_true] at hwt hlen
      simp only [pstWfB] at hst
      refine ih _ _ (by omega) (by tauto) ?_ _ h
      simp only [pstWfB, Bool.and_eq_true, List.all_nil, and_true]
      tauto
    · rcases Option.map_eq_some'.mp h with ⟨items2, hi, rfl⟩
      simp only [List.all_cons, List.length_cons, Bool.and_eq_true] at hwt hlen
      simp only [pstWfB, Bool.and_eq_true] at hst
      simp only [List.all_cons, Bool.and_eq_true, wfItem, List.all_reverse]
      exact ⟨⟨⟨hst.1.1.1, hst.1.1.2⟩, hst.1.2⟩,
        ih _ _ (by omega) (by tauto) (by simp [pstWfB]) _ hi⟩
    · rcases hq : unquote _ with _ | body <;> rw [hq] at h
      · exact absurd h (by simp)
      · simp only [List.all_cons, List.length_cons, wfTok, Bool.and_eq_true] at hwt hlen
        have hvb := validLitText_unquote _ _ hq (by tauto)
        refine ih _ _ (by omega) (by tauto) ?_ _ h
        simp only [pstWfB, List.all_append, List.all_cons, List.all_nil, wfAttr,
          Bool.and_eq_true, and_true, true_and] at hst ⊢
        tauto
    · simp only [List.all_cons, List.length_cons, wfTok, Bool.and_eq_true] at hwt hlen
      simp only [pstWfB, Bool.and_eq_true] at hst
      refine ih _ _ (by omega) (by tauto) ?_ _ h
      simp only [pstWfB, Bool.and_eq_true, List.all_cons, List.all_nil, wfField,
        and_true, true_and]
      tauto
    · rcases Option.map_eq_some'.mp h with ⟨items2, hi, rfl⟩
      simp only [List.all_cons, List.length_cons, wfTok, Bool.and_eq_true] at hwt hlen
      simp only [pstWfB, Bool.and_eq_true] at hst
      simp only [List.all_cons, Bool.and_eq_true, wfItem, List.all_reverse, wfField]
      refine ⟨⟨⟨hst.1.1.1, hst.1.1.2⟩, ⟨?_, hst.1.2⟩⟩,
        ih _ _ (by omega) (by tauto) (by simp [pstWfB]) _ hi⟩
      tauto
    · exact absurd h (by simp)

theorem parseP_wf (ts : List Tok) (hwt : ts.all wfTok = true) (items : List Item)
    (h : parseP ts (.top []) = some items) : items.all wfItem = true :=
  parseP_wf_aux ts.length ts _ (Nat.le_refl _) hwt (by simp [pstWfB]) items h

theorem parseFileAux_wf (ts : List Tok) (acc : List Attr) (f : File)
    (hwt : ts.all wfTok = true) (hacc : acc.all wfAttr = true)
    (h : parseFileAux ts acc = some f) : wfFile f = true := by
  induction ts, acc using parseFileAux.induct generalizing f with
  | case1 p v rest acc body hq ih =>
    simp only [parseFileAux, hq] at h
    simp only [List.all_cons, wfTok, Bool.and_eq_true] at hwt
    have hvb := validLitText_unquote _ _ hq (by tauto)
    refine ih _ (by tauto) ?_ h
    simp only [List.all_append, List.all_cons, List.all_nil, wfAttr, Bool.and_eq_true,
      and_true, true_and]
    tauto
  | case2 p v rest acc hq =>
    simp only [parseFileAux, hq] at h
    exact absurd h (by simp)
  | case3 ts acc hne =>
    rw [parseFileAux.eq_def] at h
    split at h
    · exact absurd rfl (hne _ _ _)
    · rcases Option.map_eq_some'.mp h with ⟨items, hi, rfl⟩
      simp only [wfFile, Bool.and_eq_true]
      exact ⟨hacc, parseP_wf _ hwt _ hi⟩

theorem parseFile_wf (ts : List Tok) (hwt : ts.all wfTok = true) (f : File)
    (h : parseFile ts = some f) : wfFile f = true :=
  parseFileAux_wf ts [] f hwt rfl h

theorem wfExpr_withAttrCons (a : Attr) (e : Expr) (ha : wfAttr a = true)
    (he : wfExpr e = true) : wfExpr (withAttrCons a e) = true := by
  cases e <;> simp_all [withAttrCons, wfExpr]

theorem parseExpr_wf_aux : ∀ (n : Nat) (ts : List Tok), ts.length ≤ n →
    ts.all wfTok = true → ∀ e, parseExpr ts = some e → wfExpr e = true := by
  intro n
  induction n with
  | zero =>
    intro ts hlen hwt e h
    have hts : ts = [] := List.length_eq_zero.mp (Nat.le_zero.mp hlen)
    subst hts
    simp [parseExpr] at h
  | succ n ih =>
    intro ts hlen hwt e h
    rw [parseExpr.eq_def] at h
    split at h
    · rcases hq : unquote _ with _ | body <;> rw [hq] at h
      · exact absurd h (by simp)
      · rcases Option.map_eq_some'.mp h with ⟨e2, he2, rfl⟩
        simp only [List.all_cons, List.length_cons, wfTok, Bool.and_eq_true] at hwt hlen
        have hvb := validLitText_unquote _ _ hq (by tauto)
        refine wfExpr_withAttrCons _ _ ?_ (ih _ (by omega) (by tauto) _ he2)
        simp only [wfAttr, Bool.and_eq_true]
        tauto
    · cases h
      simp_all [wfExpr, wfTok]
    · cases h
      simp_all [wfExpr, wfTok]
    · rcases Option.map_eq_some'.mp h with ⟨e2, he2, rfl⟩
      simp only [List.all_cons, List.length_cons, wfTok, Bool.and_eq_true] at hwt hlen
      simp only [wfExpr, exprIsPrimary, exprAttrs, List.isEmpty_nil, List.all_nil,
        Bool.and_eq_true, and_true, true_and]
      exact ⟨by tauto, ih _ (by omega) (by tauto) _ he2⟩
    · rcases Option.map_eq_some'.mp h with ⟨e2, he2, rfl⟩
      simp only [List.all_cons, List.length_cons, wfTok, Bool.and_eq_true] at hwt hlen
      simp only [wfExpr, exprIsPrimary, exprAttrs, List.isEmpty_nil, List.all_nil,
        Bool.and_eq_true, and_true, true_and]
      exact ⟨by tauto, ih _ (by omega) (by tauto) _ he2⟩
    · exact absurd h (by simp)

theorem parseExpr_wf (ts : List Tok) (hwt : ts.all wfTok = true) (e : Expr)
    (h : parseExpr ts = some e) : wfExpr e = true :=
  parseExpr_wf_aux ts.length ts (Nat.le_refl _) hwt e h

theorem removeDocAttrs_all_wf (as : List Attr) (h : as.all wfAttr = true) :
    (removeDocAttrs as).all wfAttr = true := by
  simp only [List.all_eq_true] at *
  intro a ha
  exact h a (List.mem_of_mem_filter ha)

theorem wfFile_remove_docs (f : File) (h : wfFile f = true) :
    wfFile (RemovableDocs.remove_docs f) = true := by
  show wfFile ⟨removeDocAttrs f.attrs, f.items.map Item.remove_docs_at⟩ = true
  simp only [wfFile, Bool.and_eq_true] at h ⊢
  refine ⟨removeDocAttrs_all_wf _ h.1, ?_⟩
  simp only [List.all_map, List.all_eq_true] at h ⊢
  intro it hit
  have h2 := h.2 it hit
  cases it with
  | mk iattrs iname ibody =>
    simp only [Function.comp, Item.remove_docs_at, wfItem, Bool.and_eq_true] at h2 ⊢
    refine ⟨⟨removeDocAttrs_all_wf _ h2.1.1, h2.1.2⟩, ?_⟩
    cases ibody with
    | unit => simp [StructBody.remove_docs_at]
    | fields fs =>
      simp only [StructBody.remove_docs_at, List.all_map, List.all_eq_true] at h2 ⊢
      intro fd hfd
      have h3 := h2.2 fd hfd
      simp only [Function.comp, FieldD.remove_docs_at, wfField, Bool.and_eq_true] at h3 ⊢
      exact ⟨⟨removeDocAttrs_all_wf _ h3.1.1, h3.1.2⟩, h3.2⟩

theorem wfExpr_remove_docs (e : Expr) (h : wfExpr e = true) :
    wfExpr (Expr.removeDocsE e) = true := by
  induction e with
  | lit as t => simp_all [Expr.removeDocsE, wfExpr, removeDocAttrs_all_wf]
  | var as s => simp_all [Expr.removeDocsE, wfExpr, removeDocAttrs_all_wf]
  | add as l r ihl ihr =>
    simp only [Expr.removeDocsE, wfExpr, Bool.and_eq_true] at h ⊢
    obtain ⟨⟨⟨⟨ha, hp⟩, hla⟩, hl⟩, hr⟩ := h
    refine ⟨⟨⟨⟨removeDocAttrs_all_wf _ ha, ?_⟩, ?_⟩, ihl hl⟩, ihr hr⟩
    · cases l <;> simp_all [Expr.removeDocsE, exprIsPrimary]
    · cases l <;> simp_all [Expr.removeDocsE, exprAttrs, removeDocAttrs]

/-! ## The lexer inverts the printers: automaton lemmas -/

/-! Character class facts -/

theorem identStart_not_ws {c : Char} (h : identStartChar c = true) : wsChar c = false := by
  rcases hw : wsChar c
  · rfl
  · exfalso
    have hc : ((c = ' ' ∨ c = '\n') ∨ c = '\t') ∨ c = '\r' := by
      simpa [wsChar] using hw
    rw [or_assoc, or_assoc] at hc
    rcases hc with rfl | rfl | rfl | rfl <;> exact absurd h (by decide)

theorem isDigit_not_ws {c : Char} (h : c.isDigit = true) : wsChar c = false := by
  rcases hw : wsChar c
  · rfl
  · exfalso
    have hc : ((c = ' ' ∨ c = '\n') ∨ c = '\t') ∨ c = '\r' := by
      simpa [wsChar] using hw
    rw [or_assoc, or_assoc] at hc
    rcases hc with rfl | rfl | rfl | rfl <;> exact absurd h (by decide)

theorem isDigit_not_alpha {c : Char} (h : c.isDigit = true) : c.isAlpha = false := by
  rcases hh : c.isAlpha with _ | _
  · rfl
  · exfalso
    simp only [Char.isDigit, Char.isAlpha, Char.isUpper, Char.isLower, Bool.and_eq_true,
      Bool.or_eq_true, decide_eq_true_eq, UInt32.le_def, BitVec.le_def,
      show ((48 : UInt32)).toBitVec.toNat = 48 from rfl,
      show ((57 : UInt32)).toBitVec.toNat = 57 from rfl,
      show ((65 : UInt32)).toBitVec.toNat = 65 from rfl,
      show ((90 : UInt32)).toBitVec.toNat = 90 from rfl,
      show ((97 : UInt32)).toBitVec.toNat = 97 from rfl,
      show ((122 : UInt32)).toBitVec.toNat = 122 from rfl] at h hh
    omega

theorem isDigit_not_identStart {c : Char} (h : c.isDigit = true) :
    identStartChar c = false := by
  simp only [identStartChar, Bool.or_eq_false_iff, isDigit_not_alpha h,
    decide_eq_false_iff_not, true_and]
  rintro rfl
  exact absurd h (by decide)

theorem identStart_identChar {c : Char} (h : identStartChar c = true) :
    identChar c = true := by
  simp only [identStartChar, Bool.or_eq_true, decide_eq_true_eq] at h
  rcases h with h | rfl
  · simp [identChar, Char.isAlphanum, h]
  · decide

theorem isDigit_identChar {c : Char} (h : c.isDigit = true) : identChar c = true := by
  simp [identChar, Char.isAlphanum, h]

theorem not_identChar_not_isDigit {c : Char} (h : identChar c = false) :
    c.isDigit = false := by
  rcases hd : c.isDigit
  · rfl
  · exact absurd (isDigit_identChar hd) (by simp [h])

theorem punct_cases {c : Char} (h : punctuationChar c = true) :
    c = '#' ∨ c = '!' ∨ c = '=' ∨ c = ':' ∨ c = ';' ∨ c = ',' ∨ c = '+' ∨ c = '-' ∨
    c = '*' ∨ c = '<' ∨ c = '>' ∨ c = '&' ∨ c = '|' ∨ c = '@' ∨ c = '.' ∨ c = '?' ∨
    c = '$' ∨ c = '%' ∨ c = '^' ∨ c = '~' := by
  have h2 := h
  simp only [punctuationChar, List.contains_cons, List.contains_nil, Bool.or_eq_true,
    beq_iff_eq, Bool.or_eq_false_iff] at h2
  tauto

/-! Lexer run lemmas -/

def runLex (cs : List Char) (st : LexSt) : LexSt := cs.foldl lexStep st

theorem runLex_cons (c : Char) (cs : List Char) (st : LexSt) :
    runLex (c :: cs) st = runLex cs (lexStep st c) := rfl

theorem runLex_append (cs1 cs2 : List Char) (st : LexSt) :
    runLex (cs1 ++ cs2) st = runLex cs2 (runLex cs1 st) := List.foldl_append _ _ _ _

theorem startChar_punct {c : Char} (h : punctuationChar c = true) (st : LexSt) :
    startChar c st = { st with acc := .punct c :: st.acc } := by
  rcases punct_cases h with rfl | rfl | rfl | rfl | rfl | rfl | rfl | rfl | rfl | rfl |
    rfl | rfl | rfl | rfl | rfl | rfl | rfl | rfl | rfl | rfl <;> rfl

theorem runLex_identAcc (l : List Char) (hl : l.all identChar = true)
    (rev : List Char) (acc : List Tok) (depth : List Delim) :
    runLex l ⟨.ident rev, acc, depth, false⟩ =
      ⟨.ident (l.reverse ++ rev), acc, depth, false⟩ := by
  induction l generalizing rev with
  | nil => rfl
  | cons c l ih =>
    simp only [List.all_cons, Bool.and_eq_true] at hl
    rw [runLex_cons, show lexStep ⟨.ident rev, acc, depth, false⟩ c =
      ⟨.ident (c :: rev), acc, depth, false⟩ from by simp [lexStep, hl.1]]
    rw [ih hl.2 (c :: rev)]
    simp

theorem runLex_numAcc (l : List Char) (hl : l.all Char.isDigit = true)
    (rev : List Char) (acc : List Tok) (depth : List Delim) :
    runLex l ⟨.num rev, acc, depth, false⟩ =
      ⟨.num (l.reverse ++ rev), acc, depth, false⟩ := by
  induction l generalizing rev with
  | nil => rfl
  | cons c l ih =>
    simp only [List.all_cons, Bool.and_eq_true] at hl
    rw [runLex_cons, show lexStep ⟨.num rev, acc, depth, false⟩ c =
      ⟨.num (c :: rev), acc, depth, false⟩ from by simp [lexStep, hl.1]]
    rw [ih hl.2 (c :: rev)]
    simp

theorem runLex_strAcc (l : List Char)
    (hl : l.all (fun c => !(c = '"' : Bool) && !(c = '\\' : Bool) && !(c = '\n' : Bool)) = true)
    (rev : List Char) (acc : List Tok) (depth : List Delim) :
    runLex l ⟨.str rev, acc, depth, false⟩ =
      ⟨.str (l.reverse ++ rev), acc, depth, false⟩ := by
  induction l generalizing rev with
  | nil => rfl
  | cons c l ih =>
    simp only [List.all_cons, Bool.and_eq_true, Bool.not_eq_true', decide_eq_false_iff_not] at hl
    rw [runLex_cons, show lexStep ⟨.str rev, acc, depth, false⟩ c =
      ⟨.str (c :: rev), acc, depth, false⟩ from by simp [lexStep, hl.1.1.1, hl.1.1.2]]
    rw [ih (by simp only [List.all_eq_true] at hl ⊢; intro x hx; have := hl.2 x hx; simpa using this) (c :: rev)]
    simp

theorem runLex_docOAcc (l : List Char) (hl : l.all (fun c => !(c = '\n' : Bool)) = true)
    (rev : List Char) (acc : List Tok) (depth : List Delim) :
    runLex l ⟨.docO rev, acc, depth, false⟩ =
      ⟨.docO (l.reverse ++ rev), acc, depth, false⟩ := by
  induction l generalizing rev with
  | nil => rfl
  | cons c l ih =>
    simp only [List.all_cons, Bool.and_eq_true, Bool.not_eq_true', decide_eq_false_iff_not] at hl
    rw [runLex_cons, show lexStep ⟨.docO rev, acc, depth, false⟩ c =
      ⟨.docO (c :: rev), acc, depth, false⟩ from by simp [lexStep, hl.1]]
    rw [ih (by simp only [List.all_eq_true] at hl ⊢; intro x hx; have := hl.2 x hx; simpa using this) (c :: rev)]
    simp

theorem runLex_docIAcc (l : List Char) (hl : l.all (fun c => !(c = '\n' : Bool)) = true)
    (rev : List Char) (acc : List Tok) (depth : List Delim) :
    runLex l ⟨.docI rev, acc, depth, false⟩ =
      ⟨.docI (l.reverse ++ rev), acc, depth, false⟩ := by
  induction l generalizing rev with
  | nil => rfl
  | cons c l ih =>
    simp only [List.all_cons, Bool.and_eq_true, Bool.not_eq_true', decide_eq_false_iff_not] at hl
    rw [runLex_cons, show lexStep ⟨.docI rev, acc, depth, false⟩ c =
      ⟨.docI (c :: rev), acc, depth, false⟩ from by simp [lexStep, hl.1]]
    rw [ih (by simp only [List.all_eq_true] at hl ⊢; intro x hx; have := hl.2 x hx; simpa using this) (c :: rev)]
    simp

def noMergeB : List Char → Bool
  | [] => false
  | c :: _ => !identChar c

def validDocBody (v : String) : Bool := v.data.all (fun c => !(c = '\n' : Bool))

theorem runLex_ident (s : String) (hs : validIdentStr s = true) (cs : List Char)
    (hnm : noMergeB cs = true) (acc : List Tok) (depth : List Delim) :
    runLex (s.data ++ cs) ⟨.none, acc, depth, false⟩ =
      runLex cs ⟨.none, .ident s :: acc, depth, false⟩ := by
  rcases hd : s.data with _ | ⟨c, rest⟩
  · simp [validIdentStr, hd] at hs
  · simp only [validIdentStr, hd, Bool.and_eq_true] at hs
    rw [List.cons_append, runLex_cons]
    rw [show lexStep ⟨.none, acc, depth, false⟩ c = ⟨.ident [c], acc, depth, false⟩ from by
      simp [lexStep, startChar, identStart_not_ws hs.1, hs.1]]
    rw [runLex_append, runLex_identAcc rest hs.2]
    cases cs with
    | nil => simp [noMergeB] at hnm
    | cons c2 cs2 =>
      simp only [noMergeB, Bool.not_eq_true'] at hnm
      rw [runLex_cons, runLex_cons]
      congr 1
      have hmk : String.mk ((rest.reverse ++ [c]).reverse) = s := by
        apply String.ext
        simp [hd]
      simp only [lexStep, hnm, Bool.false_eq_true, if_false, hmk]

theorem runLex_num (s : String) (hs : validNumStr s = true) (cs : List Char)
    (hnm : noMergeB cs = true) (acc : List Tok) (depth : List Delim) :
    runLex (s.data ++ cs) ⟨.none, acc, depth, false⟩ =
      runLex cs ⟨.none, .lit s :: acc, depth, false⟩ := by
  rcases hd : s.data with _ | ⟨c, rest⟩
  · simp [validNumStr, hd] at hs
  · simp only [validNumStr, hd, List.all_cons, Bool.and_eq_true] at hs
    rw [List.cons_append, runLex_cons]
    rw [show lexStep ⟨.none, acc, depth, false⟩ c = ⟨.num [c], acc, depth, false⟩ from by
      simp [lexStep, startChar, isDigit_not_ws hs.2.1, isDigit_not_identStart hs.2.1, hs.2.1]]
    rw [runLex_append, runLex_numAcc rest hs.2.2]
    cases cs with
    | nil => simp [noMergeB] at hnm
    | cons c2 cs2 =>
      simp only [noMergeB, Bool.not_eq_true'] at hnm
      rw [runLex_cons, runLex_cons]
      congr 1
      have hmk : String.mk ((rest.reverse ++ [c]).reverse) = s := by
        apply String.ext
        simp [hd]
      simp only [lexStep, not_identChar_not_isDigit hnm, hnm, Bool.false_eq_true, if_false, hmk]

theorem runLex_str (v : String) (hv : validStrBody v = true) (cs : List Char)
    (acc : List Tok) (depth : List Delim) :
    runLex ('"' :: (v.data ++ '"' :: cs)) ⟨.none, acc, depth, false⟩ =
      runLex cs ⟨.none, .lit (quoteWrap v) :: acc, depth, false⟩ := by
  rw [runLex_cons]
  rw [show lexStep ⟨.none, acc, depth, false⟩ '"' = ⟨.str [], acc, depth, false⟩ from by
    simp [lexStep, startChar, wsChar, identStartChar]]
  rw [runLex_append, runLex_strAcc v.data hv]
  rw [runLex_cons]
  rw [show lexStep ⟨.str (v.data.reverse ++ []), acc, depth, false⟩ '"' =
    ⟨.none, .lit (quoteWrap v) :: acc, depth, false⟩ from by
      simp [lexStep]]

theorem runLex_docO (v : String) (hv : validDocBody v = true) (cs : List Char)
    (acc : List Tok) (depth : List Delim) :
    runLex ('/' :: '/' :: '/' :: (v.data ++ '\n' :: cs)) ⟨.none, acc, depth, false⟩ =
      runLex cs ⟨.none, (docToksOut v).reverse ++ acc, depth, false⟩ := by
  rw [runLex_cons]
  rw [show lexStep ⟨.none, acc, depth, false⟩ '/' = ⟨.slash, acc, depth, false⟩ from by
    simp [lexStep, startChar, wsChar, identStartChar]]
  rw [runLex_cons]
  rw [show lexStep ⟨.slash, acc, depth, false⟩ '/' = ⟨.slash2, acc, depth, false⟩ from by
    simp [lexStep]]
  rw [runLex_cons]
  rw [show lexStep ⟨.slash2, acc, depth, false⟩ '/' = ⟨.docO [], acc, depth, false⟩ from by
    simp [lexStep]]
  rw [runLex_append, runLex_docOAcc v.data hv]
  rw [runLex_cons]
  rw [show lexStep ⟨.docO (v.data.reverse ++ []), acc, depth, false⟩ '\n' =
    ⟨.none, (docToksOut v).reverse ++ acc, depth, false⟩ from by
      simp [lexStep]]

theorem runLex_docI (v : String) (hv : validDocBody v = true) (cs : List Char)
    (acc : List Tok) (depth : List Delim) :
    runLex ('/' :: '/' :: '!' :: (v.data ++ '\n' :: cs)) ⟨.none, acc, depth, false⟩ =
      runLex cs ⟨.none, (docToksIn v).reverse ++ acc, depth, false⟩ := by
  rw [runLex_cons]
  rw [show lexStep ⟨.none, acc, depth, false⟩ '/' = ⟨.slash, acc, depth, false⟩ from by
    simp [lexStep, startChar, wsChar, identStartChar]]
  rw [runLex_cons]
  rw [show lexStep ⟨.slash, acc, depth, false⟩ '/' = ⟨.slash2, acc, depth, false⟩ from by
    simp [lexStep]]
  rw [runLex_cons]
  rw [show lexStep ⟨.slash2, acc, depth, false⟩ '!' = ⟨.docI [], acc, depth, false⟩ from by
    simp [lexStep]]
  rw [runLex_append, runLex_docIAcc v.data hv]
  rw [runLex_cons]
  rw [show lexStep ⟨.docI (v.data.reverse ++ []), acc, depth, false⟩ '\n' =
    ⟨.none, (docToksIn v).reverse ++ acc, depth, false⟩ from by
      simp [lexStep]]

/-- The emission relation: strings that the lexer is guaranteed to read
back as a given token stream.  Identifier and number emissions require a
following non-identifier character; whitespace may appear anywhere. -/
inductive Emits : List Tok → List Char → Prop
  | nil : Emits [] []
  | ws {c : Char} {ts cs} : wsChar c = true → Emits ts cs → Emits ts (c :: cs)
  | idn {s : String} {ts cs} : validIdentStr s = true → noMergeB cs = true →
      Emits ts cs → Emits (.ident s :: ts) (s.data ++ cs)
  | num {s : String} {ts cs} : validNumStr s = true → noMergeB cs = true →
      Emits ts cs → Emits (.lit s :: ts) (s.data ++ cs)
  | str {v : String} {ts cs} : validStrBody v = true →
      Emits ts cs → Emits (.lit (quoteWrap v) :: ts) ('"' :: (v.data ++ '"' :: cs))
  | pnc {c : Char} {ts cs} : punctuationChar c = true →
      Emits ts cs → Emits (.punct c :: ts) (c :: cs)
  | opn {d : Delim} {ts cs} : Emits ts cs → Emits (.openT d :: ts) (openChar d :: cs)
  | cls {d : Delim} {ts cs} : Emits ts cs → Emits (.closeT d :: ts) (closeChar d :: cs)
  | docO {v : String} {ts cs} : validDocBody v = true →
      Emits ts cs → Emits (docToksOut v ++ ts) ('/' :: '/' :: '/' :: (v.data ++ '\n' :: cs))
  | docI {v : String} {ts cs} : validDocBody v = true →
      Emits ts cs → Emits (docToksIn v ++ ts) ('/' :: '/' :: '!' :: (v.data ++ '\n' :: cs))

theorem emits_run {ts : List Tok} {cs : List Char} (he : Emits ts cs) :
    ∀ (acc : List Tok) (depth depth2 : List Delim), runDepth ts depth = some depth2 →
    runLex cs ⟨.none, acc, depth, false⟩ = ⟨.none, ts.reverse ++ acc, depth2, false⟩ := by
  induction he with
  | nil =>
    intro acc depth depth2 h
    simp only [runDepth, Option.some_inj] at h
    subst h
    rfl
  | ws hc _ ih =>
    intro acc depth depth2 h
    rw [runLex_cons, show lexStep ⟨.none, acc, depth, false⟩ _ = ⟨.none, acc, depth, false⟩
      from by simp [lexStep, startChar, hc]]
    exact ih acc depth depth2 h
  | idn hs hnm _ ih =>
    intro acc depth depth2 h
    rw [runLex_ident _ hs _ hnm, ih _ _ _ (by simpa [runDepth] using h)]
    simp
  | num hs hnm _ ih =>
    intro acc depth depth2 h
    rw [runLex_num _ hs _ hnm, ih _ _ _ (by simpa [runDepth] using h)]
    simp
  | str hv _ ih =>
    intro acc depth depth2 h
    rw [runLex_str _ hv, ih _ _ _ (by simpa [runDepth] using h)]
    simp
  | pnc hc _ ih =>
    intro acc depth depth2 h
    rw [runLex_cons, show lexStep ⟨.none, acc, depth, false⟩ _ =
      ⟨.none, .punct _ :: acc, depth, false⟩ from by
        show startChar _ _ = _
        rw [startChar_punct hc]]
    rw [ih _ _ _ (by simpa [runDepth] using h)]
    simp
  | opn hprev ih =>
    intro acc depth depth2 h
    rename_i d ts2 cs2
    rw [runLex_cons, show lexStep ⟨.none, acc, depth, false⟩ (openChar d) =
      ⟨.none, .openT d :: acc, d :: depth, false⟩ from by
        cases d <;> rfl]
    rw [ih _ _ _ (by simpa [runDepth] using h)]
    simp
  | cls hprev ih =>
    intro acc depth depth2 h
    rename_i d ts2 cs2
    rcases depth with _ | ⟨d2, ds⟩
    · simp [runDepth] at h
    · simp only [runDepth] at h
      by_cases hd2 : d = d2
      · subst hd2
        rw [if_pos rfl] at h
        rw [runLex_cons, show lexStep ⟨.none, acc, d :: ds, false⟩ (closeChar d) =
          ⟨.none, .closeT d :: acc, ds, false⟩ from by cases d <;> rfl]
        rw [ih _ _ _ h]
        simp
      · rw [if_neg hd2] at h
        exact absurd h (by simp)
  | docO hv hprev ih =>
    intro acc depth depth2 h
    rename_i v ts2 cs2
    rw [runLex_docO _ hv]
    have h2 : runDepth ts2 depth = some depth2 := by
      rw [show runDepth (docToksOut v ++ ts2) depth = runDepth ts2 depth from by
        simp [docToksOut, runDepth]] at h
      exact h
    rw [ih _ _ _ h2]
    simp [docToksOut]
  | docI hv hprev ih =>
    intro acc depth depth2 h
    rename_i v ts2 cs2
    rw [runLex_docI _ hv]
    have h2 : runDepth ts2 depth = some depth2 := by
      rw [show runDepth (docToksIn v ++ ts2) depth = runDepth ts2 depth from by
        simp [docToksIn, runDepth]] at h
      exact h
    rw [ih _ _ _ h2]
    simp [docToksIn]

theorem finishLex_newline (st : LexSt) : finishLex (lexStep st '\n') = finishLex st := by
  rcases st with ⟨pend, acc, depth, err⟩
  cases err
  · cases pend <;> rfl
  · rfl

theorem tokenize_of_emits {ts : List Tok} {s : String}
    (he : Emits ts (s.data ++ ['\n'])) (hb : runDepth ts [] = some []) :
    tokenize s = some ts := by
  have h1 : runLex (s.data ++ ['\n']) initLexSt = ⟨.none, ts.reverse ++ [], [], false⟩ :=
    emits_run he [] [] [] hb
  have h3 : runLex (s.data ++ ['\n']) initLexSt = lexStep (runLex s.data initLexSt) '\n' := by
    simp [runLex, List.foldl_append]
  have h4 : tokenize s = finishLex (runLex s.data initLexSt) := rfl
  rw [h4, ← finishLex_newline, ← h3, h1]
  simp [finishLex, finDepth]

/-! ## Emission of the printer outputs -/

theorem emits_ws_list (l : List Char) (hl : l.all wsChar = true) {ts : List Tok}
    {cs : List Char} (h : Emits ts cs) : Emits ts (l ++ cs) := by
  induction l with
  | nil => simpa
  | cons c l ih =>
    simp only [List.all_cons, Bool.and_eq_true] at hl
    exact Emits.ws hl.1 (ih hl.2)

def tokNeedsSep : Tok → Bool
  | .ident _ => true
  | .lit s => (unquote s).isNone
  | _ => false

theorem unquote_some_eq (s b : String) (h : unquote s = some b) : s = quoteWrap b := by
  unfold unquote at h
  split at h
  · rename_i rest heq
    split at h
    · rename_i hlast
      have hne : rest ≠ [] := by
        rintro rfl
        simp at hlast
      have hlast2 : rest.getLast hne = '"' := by
        have := List.getLast?_eq_getLast rest hne
        rw [this] at hlast
        exact Option.some_inj.mp hlast
      have hrest : rest.dropLast ++ ['"'] = rest := by
        conv_rhs => rw [← List.dropLast_append_getLast hne]
        rw [hlast2]
      cases h
      apply String.ext
      show s.data = '"' :: ((String.mk rest.dropLast).data ++ ['"'])
      rw [heq]
      show ('"' :: rest : List Char) = '"' :: (rest.dropLast ++ ['"'])
      rw [hrest]
    · exact absurd h (by simp)
  · exact absurd h (by simp)

theorem validLitText_cases (s : String) (h : validLitText s = true) :
    (∃ b, validStrBody b = true ∧ s = quoteWrap b) ∨
    ((unquote s).isNone = true ∧ validNumStr s = true) := by
  rcases hq : unquote s with _ | b
  · right
    constructor
    · simp [hq]
    · simpa [validLitText, hq] using h
  · left
    exact ⟨b, by simpa [validLitText, hq] using h, unquote_some_eq s b hq⟩

theorem emits_tok (t : Tok) (h : wfTok t = true) {ts : List Tok} {cs : List Char}
    (hnm : tokNeedsSep t = true → noMergeB cs = true) (he : Emits ts cs) :
    Emits (t :: ts) ((tokText t).data ++ cs) := by
  cases t with
  | ident s => exact Emits.idn h (hnm rfl) he
  | lit s =>
    rcases validLitText_cases s h with ⟨b, hb, rfl⟩ | ⟨hq, hn⟩
    · have hsh : (tokText (Tok.lit (quoteWrap b))).data ++ cs =
          '"' :: (b.data ++ '"' :: cs) := by
        simp [tokText, quoteWrap, strData_append]
      rw [hsh]
      exact Emits.str hb he
    · exact Emits.num hn (hnm (by simp [tokNeedsSep, hq])) he
  | punct c => exact Emits.pnc h he
  | openT d =>
    show Emits _ (openChar d :: cs)
    exact Emits.opn he
  | closeT d =>
    show Emits _ (closeChar d :: cs)
    exact Emits.cls he

theorem sepStr_ws_or_empty (t u : Tok) : sepStr t u = " " ∨ sepStr t u = "" := by
  cases t <;> cases u <;>
    first
      | exact Or.inl rfl
      | exact Or.inr rfl
      | (rename_i d; cases d <;> first | exact Or.inl rfl | exact Or.inr rfl)
      | (rename_i d e; cases d <;> cases e <;>
          first | exact Or.inl rfl | exact Or.inr rfl)

theorem sepStr_empty_close (t u : Tok) (ht : tokNeedsSep t = true)
    (hs : sepStr t u = "") : u = .closeT .paren ∨ u = .closeT .bracket := by
  cases t <;> cases u <;> simp_all [tokNeedsSep, sepStr] <;>
    (rename_i d; cases d <;> simp_all)

theorem noMergeB_tokText_close (u : Tok)
    (hu : u = .closeT .paren ∨ u = .closeT .bracket) (X : List Char) :
    noMergeB ((tokText u).data ++ X) = true := by
  rcases hu with rfl | rfl <;> rfl

theorem emits_tsToString (ts : List Tok) (hwf : ts.all wfTok = true)
    {ts0 : List Tok} {cs0 : List Char} (hnm : noMergeB cs0 = true)
    (h0 : Emits ts0 cs0) : Emits (ts ++ ts0) ((tsToString ts).data ++ cs0) := by
  induction ts with
  | nil => simpa [tsToString]
  | cons t rest ih =>
    simp only [List.all_cons, Bool.and_eq_true] at hwf
    cases rest with
    | nil =>
      show Emits (t :: ts0) ((tokText t).data ++ cs0)
      exact emits_tok t hwf.1 (fun _ => hnm) h0
    | cons u rs =>
      have hrest : Emits ((u :: rs) ++ ts0) ((tsToString (u :: rs)).data ++ cs0) :=
        ih hwf.2
      have hmain : Emits ((u :: rs) ++ ts0)
          ((sepStr t u).data ++ ((tsToString (u :: rs)).data ++ cs0)) := by
        rcases sepStr_ws_or_empty t u with hs | hs <;> rw [hs]
        · exact Emits.ws (by decide) hrest
        · simpa using hrest
      have hshape : (tsToString (t :: u :: rs)).data ++ cs0 =
          (tokText t).data ++ ((sepStr t u).data ++ ((tsToString (u :: rs)).data ++ cs0)) := by
        simp [tsToString, strData_append]
      rw [hshape]
      refine emits_tok t hwf.1 (fun hts => ?_) hmain
      rcases sepStr_ws_or_empty t u with hs | hs
      · rw [hs]
        rfl
      · rw [hs]
        have hclose := sepStr_empty_close t u hts hs
        simp only [List.nil_append]
        rcases hclose with rfl | rfl
        · cases rs with
          | nil => rfl
          | cons w ws => rfl
        · cases rs with
          | nil => rfl
          | cons w ws => rfl

theorem emits_nl : Emits [] ['\n'] := Emits.ws (by decide) Emits.nil

theorem tokenize_tsToString (ts : List Tok) (hwf : wfToks ts = true) :
    tokenize (tsToString ts) = some ts := by
  simp only [wfToks, Bool.and_eq_true, decide_eq_true_eq] at hwf
  have he : Emits (ts ++ []) ((tsToString ts).data ++ ['\n']) :=
    emits_tsToString ts hwf.1 rfl emits_nl
  rw [List.append_nil] at he
  exact tokenize_of_emits he hwf.2

theorem tokens_equal_refl (s : Settings) (t : List Tok) : tokens_equal s t t = true := by
  unfold tokens_equal
  cases hf : parseFile t
  · cases he : parseExpr t
    · simp
    · simp [remove_docs_pair, remove_docs_if]
      split <;> simp
  · simp [remove_docs_pair, remove_docs_if]
    split <;> simp

theorem validStrBody_validDocBody (v : String) (h : validStrBody v = true) :
    validDocBody v = true := by
  simp only [validStrBody, validDocBody, List.all_eq_true] at *
  intro c hc
  have := h c hc
  simp_all

theorem emits_attrInline (a : Attr) (ha : wfAttr a = true) {ts : List Tok}
    {cs : List Char} (he : Emits ts cs) :
    Emits (attrToksOut a ++ ts) ((attrInlineText a).data ++ cs) := by
  simp only [wfAttr, Bool.and_eq_true] at ha
  have hchars : (attrInlineText a).data ++ cs =
      '#' :: '[' :: (a.path.data ++ (' ' :: '=' :: ' ' :: '"' ::
        (a.value.data ++ '"' :: (']' :: ' ' :: cs)))) := by
    simp [attrInlineText, quoteWrap, strData_append]
  rw [hchars]
  show Emits (.punct '#' :: .openT .bracket :: .ident a.path :: .punct '=' ::
    .lit (quoteWrap a.value) :: .closeT .bracket :: ts) _
  refine Emits.pnc (by decide) (Emits.opn (Emits.idn ha.1 rfl
    (Emits.ws (by decide) (Emits.pnc (by decide) (Emits.ws (by decide) ?_)))))
  exact Emits.str ha.2 (Emits.cls (Emits.ws (by decide) he))

theorem emits_attrTextOut (ind : String) (hind : ind.data.all wsChar = true)
    (a : Attr) (ha : wfAttr a = true) {ts : List Tok} {cs : List Char}
    (he : Emits ts cs) :
    Emits (attrToksOut a ++ ts) ((attrTextOut ind a).data ++ cs) := by
  have hw := ha
  simp only [wfAttr, Bool.and_eq_true] at hw
  by_cases hdoc : a.path = "doc"
  · have hchars : (attrTextOut ind a).data ++ cs =
        ind.data ++ ('/' :: '/' :: '/' :: (a.value.data ++ '\n' :: cs)) := by
      simp [attrTextOut, hdoc, strData_append]
    rw [hchars]
    have htoks : attrToksOut a ++ ts = docToksOut a.value ++ ts := by
      cases a with
      | mk p v =>
        simp only at hdoc
        subst hdoc
        rfl
    rw [htoks]
    exact emits_ws_list ind.data hind
      (Emits.docO (validStrBody_validDocBody _ hw.2) he)
  · have hchars : (attrTextOut ind a).data ++ cs =
        ind.data ++ ('#' :: '[' :: (a.path.data ++ (' ' :: '=' :: ' ' :: '"' ::
          (a.value.data ++ '"' :: (']' :: '\n' :: cs))))) := by
      simp [attrTextOut, hdoc, quoteWrap, strData_append]
    rw [hchars]
    apply emits_ws_list ind.data hind
    show Emits (.punct '#' :: .openT .bracket :: .ident a.path :: .punct '=' ::
      .lit (quoteWrap a.value) :: .closeT .bracket :: ts) _
    refine Emits.pnc (by decide) (Emits.opn (Emits.idn hw.1 rfl
      (Emits.ws (by decide) (Emits.pnc (by decide) (Emits.ws (by decide) ?_)))))
    exact Emits.str hw.2 (Emits.cls (Emits.ws (by decide) he))

theorem emits_attrTextIn (a : Attr) (ha : wfAttr a = true) {ts : List Tok}
    {cs : List Char} (he : Emits ts cs) :
    Emits (attrToksIn a ++ ts) ((attrTextIn a).data ++ cs) := by
  have hw := ha
  simp only [wfAttr, Bool.and_eq_true] at hw
  by_cases hdoc : a.path = "doc"
  · have hchars : (attrTextIn a).data ++ cs =
        '/' :: '/' :: '!' :: (a.value.data ++ '\n' :: cs) := by
      simp [attrTextIn, hdoc, strData_append]
    rw [hchars]
    have htoks : attrToksIn a ++ ts = docToksIn a.value ++ ts := by
      cases a with
      | mk p v =>
        simp only at hdoc
        subst hdoc
        rfl
    rw [htoks]
    exact Emits.docI (validStrBody_validDocBody _ hw.2) he
  · have hchars : (attrTextIn a).data ++ cs =
        '#' :: '!' :: '[' :: (a.path.data ++ (' ' :: '=' :: ' ' :: '"' ::
          (a.value.data ++ '"' :: (']' :: '\n' :: cs)))) := by
      simp [attrTextIn, hdoc, quoteWrap, strData_append]
    rw [hchars]
    show Emits (.punct '#' :: .punct '!' :: .openT .bracket :: .ident a.path :: .punct '=' ::
      .lit (quoteWrap a.value) :: .closeT .bracket :: ts) _
    refine Emits.pnc (by decide) (Emits.pnc (by decide) (Emits.opn (Emits.idn hw.1 rfl
      (Emits.ws (by decide) (Emits.pnc (by decide) (Emits.ws (by decide) ?_))))))
    exact Emits.str hw.2 (Emits.cls (Emits.ws (by decide) he))

theorem emits_attrsOut (ind : String) (hind : ind.data.all wsChar = true)
    (as : List Attr) (ha : as.all wfAttr = true) {ts : List Tok} {cs : List Char}
    (he : Emits ts cs) :
    Emits ((as.map attrToksOut).flatten ++ ts)
      ((strJoin (as.map (attrTextOut ind))).data ++ cs) := by
  induction as with
  | nil => simpa [strJoin]
  | cons a as ih =>
    simp only [List.all_cons, Bool.and_eq_true] at ha
    have hshape : (strJoin ((a :: as).map (attrTextOut ind))).data ++ cs =
        (attrTextOut ind a).data ++ ((strJoin (as.map (attrTextOut ind))).data ++ cs) := by
      simp [strJoin, strData_append]
    rw [hshape]
    have htoks : ((a :: as).map attrToksOut).flatten ++ ts =
        attrToksOut a ++ ((as.map attrToksOut).flatten ++ ts) := by simp
    rw [htoks]
    exact emits_attrTextOut ind hind a ha.1 (ih ha.2)

theorem emits_attrsIn (as : List Attr) (ha : as.all wfAttr = true) {ts : List Tok}
    {cs : List Char} (he : Emits ts cs) :
    Emits ((as.map attrToksIn).flatten ++ ts)
      ((strJoin (as.map attrTextIn)).data ++ cs) := by
  induction as with
  | nil => simpa [strJoin]
  | cons a as ih =>
    simp only [List.all_cons, Bool.and_eq_true] at ha
    have hshape : (strJoin ((a :: as).map attrTextIn)).data ++ cs =
        (attrTextIn a).data ++ ((strJoin (as.map attrTextIn)).data ++ cs) := by
      simp [strJoin, strData_append]
    rw [hshape]
    have htoks : ((a :: as).map attrToksIn).flatten ++ ts =
        attrToksIn a ++ ((as.map attrToksIn).flatten ++ ts) := by simp
    rw [htoks]
    exact emits_attrTextIn a ha.1 (ih ha.2)

theorem emits_fieldText (f : FieldD) (hf : wfField f = true) {ts : List Tok}
    {cs : List Char} (he : Emits ts cs) :
    Emits (fieldToks f ++ ts) ((fieldText f).data ++ cs) := by
  simp only [wfField, Bool.and_eq_true] at hf
  have hshape : (fieldText f).data ++ cs =
      (strJoin (f.attrs.map (attrTextOut "    "))).data ++
        (' ' :: ' ' :: ' ' :: ' ' :: (f.name.data ++ (':' :: ' ' ::
          (f.ty.data ++ (',' :: '\n' :: cs))))) := by
    simp [fieldText, strData_append]
  rw [hshape]
  have htoks : fieldToks f ++ ts = (f.attrs.map attrToksOut).flatten ++
      (.ident f.name :: .punct ':' :: .ident f.ty :: .punct ',' :: ts) := by
    simp [fieldToks]
  rw [htoks]
  refine emits_attrsOut "    " (by decide) f.attrs hf.1.1 ?_
  refine Emits.ws (by decide) (Emits.ws (by decide) (Emits.ws (by decide)
    (Emits.ws (by decide) (Emits.idn hf.1.2 rfl (Emits.pnc (by decide)
      (Emits.ws (by decide) (Emits.idn hf.2 rfl (Emits.pnc (by decide)
        (Emits.ws (by decide) he)))))))))

theorem emits_fieldsText (fs : List FieldD) (hf : fs.all wfField = true)
    {ts : List Tok} {cs : List Char} (he : Emits ts cs) :
    Emits ((fs.map fieldToks).flatten ++ ts) ((strJoin (fs.map fieldText)).data ++ cs) := by
  induction fs with
  | nil => simpa [strJoin]
  | cons f fs ih =>
    simp only [List.all_cons, Bool.and_eq_true] at hf
    have hshape : (strJoin ((f :: fs).map fieldText)).data ++ cs =
        (fieldText f).data ++ ((strJoin (fs.map fieldText)).data ++ cs) := by
      simp [strJoin, strData_append]
    rw [hshape]
    have htoks : ((f :: fs).map fieldToks).flatten ++ ts =
        fieldToks f ++ ((fs.map fieldToks).flatten ++ ts) := by simp
    rw [htoks]
    exact emits_fieldText f hf.1 (ih hf.2)

theorem emits_itemText (it : Item) (hit : wfItem it = true) {ts : List Tok}
    {cs : List Char} (he : Emits ts cs) :
    Emits (itemToks it ++ ts) ((itemText it).data ++ cs) := by
  simp only [wfItem, Bool.and_eq_true] at hit
  cases hb : it.body with
  | unit =>
    have hshape : (itemText it).data ++ cs =
        (strJoin (it.attrs.map (attrTextOut ""))).data ++
          ('s' :: 't' :: 'r' :: 'u' :: 'c' :: 't' :: ' ' ::
            (it.name.data ++ (';' :: '\n' :: cs))) := by
      simp [itemText, hb, strData_append]
    rw [hshape]
    have htoks : itemToks it ++ ts = (it.attrs.map attrToksOut).flatten ++
        (.ident "struct" :: .ident it.name :: .punct ';' :: ts) := by
      simp [itemToks, hb]
    rw [htoks]
    refine emits_attrsOut "" (by decide) it.attrs hit.1.1 ?_
    show Emits _ ("struct".data ++ (' ' :: (it.name.data ++ (';' :: '\n' :: cs))))
    refine Emits.idn (by decide) rfl (Emits.ws (by decide)
      (Emits.idn hit.1.2 rfl (Emits.pnc (by decide) (Emits.ws (by decide) he))))
  | fields fs =>
    rw [hb] at hit
    have hshape : (itemText it).data ++ cs =
        (strJoin (it.attrs.map (attrTextOut ""))).data ++
          ('s' :: 't' :: 'r' :: 'u' :: 'c' :: 't' :: ' ' ::
            (it.name.data ++ (' ' :: '\x7b' :: '\n' ::
              ((strJoin (fs.map fieldText)).data ++ ('\x7d' :: '\n' :: cs))))) := by
      simp [itemText, hb, strData_append]
    rw [hshape]
    have htoks : itemToks it ++ ts = (it.attrs.map attrToksOut).flatten ++
        (.ident "struct" :: .ident it.name :: .openT .brace ::
          ((fs.map fieldToks).flatten ++ (.closeT .brace :: ts))) := by
      simp [itemToks, hb]
    rw [htoks]
    refine emits_attrsOut "" (by decide) it.attrs hit.1.1 ?_
    show Emits _ ("struct".data ++ (' ' :: (it.name.data ++ (' ' :: '\x7b' :: '\n' ::
      ((strJoin (fs.map fieldText)).data ++ ('\x7d' :: '\n' :: cs))))))
    refine Emits.idn (by decide) rfl (Emits.ws (by decide)
      (Emits.idn hit.1.2 rfl (Emits.ws (by decide) ?_)))
    show Emits _ (openChar .brace :: '\n' ::
      ((strJoin (fs.map fieldText)).data ++ ('\x7d' :: '\n' :: cs)))
    refine Emits.opn (Emits.ws (by decide) ?_)
    refine emits_fieldsText fs hit.2 ?_
    show Emits _ (closeChar .brace :: '\n' :: cs)
    exact Emits.cls (Emits.ws (by decide) he)

theorem emits_itemsText (items : List Item) (hi : items.all wfItem = true)
    {ts : List Tok} {cs : List Char} (he : Emits ts cs) :
    Emits ((items.map itemToks).flatten ++ ts)
      ((strJoin (items.map itemText)).data ++ cs) := by
  induction items with
  | nil => simpa [strJoin]
  | cons it items ih =>
    simp only [List.all_cons, Bool.and_eq_true] at hi
    have hshape : (strJoin ((it :: items).map itemText)).data ++ cs =
        (itemText it).data ++ ((strJoin (items.map itemText)).data ++ cs) := by
      simp [strJoin, strData_append]
    rw [hshape]
    have htoks : ((it :: items).map itemToks).flatten ++ ts =
        itemToks it ++ ((items.map itemToks).flatten ++ ts) := by simp
    rw [htoks]
    exact emits_itemText it hi.1 (ih hi.2)

theorem emits_unparse (f : File) (hf : wfFile f = true) {ts : List Tok}
    {cs : List Char} (he : Emits ts cs) :
    Emits (fileToks f ++ ts) ((unparse f).data ++ cs) := by
  simp only [wfFile, Bool.and_eq_true] at hf
  have hshape : (unparse f).data ++ cs =
      (strJoin (f.attrs.map attrTextIn)).data ++
        ((strJoin (f.items.map itemText)).data ++ cs) := by
    simp [unparse, strData_append]
  rw [hshape]
  have htoks : fileToks f ++ ts = (f.attrs.map attrToksIn).flatten ++
      ((f.items.map itemToks).flatten ++ ts) := by
    simp [fileToks]
  rw [htoks]
  exact emits_attrsIn f.attrs hf.1 (emits_itemsText f.items hf.2 he)

theorem emits_attrsInline (as : List Attr) (ha : as.all wfAttr = true)
    {ts : List Tok} {cs : List Char} (he : Emits ts cs) :
    Emits ((as.map attrToksOut).flatten ++ ts)
      ((strJoin (as.map attrInlineText)).data ++ cs) := by
  induction as with
  | nil => simpa [strJoin]
  | cons a as ih =>
    simp only [List.all_cons, Bool.and_eq_true] at ha
    have hshape : (strJoin ((a :: as).map attrInlineText)).data ++ cs =
        (attrInlineText a).data ++ ((strJoin (as.map attrInlineText)).data ++ cs) := by
      simp [strJoin, strData_append]
    rw [hshape]
    have htoks : ((a :: as).map attrToksOut).flatten ++ ts =
        attrToksOut a ++ ((as.map attrToksOut).flatten ++ ts) := by simp
    rw [htoks]
    exact emits_attrInline a ha.1 (ih ha.2)

theorem emits_unparse_expr (e : Expr) (hw : wfExpr e = true) {ts : List Tok}
    {cs : List Char} (hnm : noMergeB cs = true) (he : Emits ts cs) :
    Emits (exprToks e ++ ts) ((unparse_expr e).data ++ cs) := by
  induction e generalizing ts cs with
  | lit as t =>
    simp only [wfExpr, Bool.and_eq_true] at hw
    have hshape : (unparse_expr (Expr.lit as t)).data ++ cs =
        (strJoin (as.map attrInlineText)).data ++ ((tokText (.lit t)).data ++ cs) := by
      simp [unparse_expr, tokText, strData_append]
    rw [hshape]
    have htoks : exprToks (Expr.lit as t) ++ ts =
        (as.map attrToksOut).flatten ++ (Tok.lit t :: ts) := by
      simp [exprToks]
    rw [htoks]
    exact emits_attrsInline as hw.1 (emits_tok (.lit t) hw.2 (fun _ => hnm) he)
  | var as s =>
    simp only [wfExpr, Bool.and_eq_true] at hw
    have hshape : (unparse_expr (Expr.var as s)).data ++ cs =
        (strJoin (as.map attrInlineText)).data ++ ((tokText (.ident s)).data ++ cs) := by
      simp [unparse_expr, tokText, strData_append]
    rw [hshape]
    have htoks : exprToks (Expr.var as s) ++ ts =
        (as.map attrToksOut).flatten ++ (Tok.ident s :: ts) := by
      simp [exprToks]
    rw [htoks]
    exact emits_attrsInline as hw.1 (emits_tok (.ident s) hw.2 (fun _ => hnm) he)
  | add as l r ihl ihr =>
    simp only [wfExpr, Bool.and_eq_true] at hw
    obtain ⟨⟨⟨⟨ha, hp⟩, hla⟩, hl⟩, hr⟩ := hw
    have hshape : (unparse_expr (Expr.add as l r)).data ++ cs =
        (strJoin (as.map attrInlineText)).data ++
          ((unparse_expr l).data ++ (' ' :: '+' :: ' ' ::
            ((unparse_expr r).data ++ cs))) := by
      simp [unparse_expr, strData_append]
    rw [hshape]
    have htoks : exprToks (Expr.add as l r) ++ ts =
        (as.map attrToksOut).flatten ++
          (exprToks l ++ (Tok.punct '+' :: (exprToks r ++ ts))) := by
      simp [exprToks]
    rw [htoks]
    refine emits_attrsInline as ha ?_
    refine ihl hl rfl ?_
    show Emits (Tok.punct '+' :: (exprToks r ++ ts)) (' ' :: '+' :: ' ' :: _)
    exact Emits.ws (by decide) (Emits.pnc (by decide) (Emits.ws (by decide)
      (ihr hr hnm he)))

def Balanced (ts : List Tok) : Prop := ∀ d, runDepth ts d = some d

theorem runDepth_append_some (ts1 ts2 : List Tok) (d d1 : List Delim)
    (h1 : runDepth ts1 d = some d1) :
    runDepth (ts1 ++ ts2) d = runDepth ts2 d1 := by
  induction ts1 generalizing d with
  | nil =>
    simp only [runDepth, Option.some_inj] at h1
    subst h1
    simp
  | cons t rest ih =>
    cases t with
    | openT dl =>
      simp only [runDepth] at h1 ⊢
      exact ih _ h1
    | closeT dl =>
      rcases d with _ | ⟨d2, ds⟩
      · simp [runDepth] at h1
      · simp only [runDepth] at h1 ⊢
        by_cases hd : dl = d2
        · subst hd
          rw [if_pos rfl] at h1 ⊢
          exact ih _ h1
        · rw [if_neg hd] at h1
          exact absurd h1 (by simp)
    | ident s =>
      simp only [runDepth] at h1 ⊢
      exact ih _ h1
    | lit s =>
      simp only [runDepth] at h1 ⊢
      exact ih _ h1
    | punct c =>
      simp only [runDepth] at h1 ⊢
      exact ih _ h1

theorem balanced_append {a b : List Tok} (ha : Balanced a) (hb : Balanced b) :
    Balanced (a ++ b) := by
  intro d
  rw [runDepth_append_some a b d d (ha d)]
  exact hb d

theorem balanced_attrToksOut (a : Attr) : Balanced (attrToksOut a) := by
  intro d
  simp [attrToksOut, runDepth]

theorem balanced_attrToksIn (a : Attr) : Balanced (attrToksIn a) := by
  intro d
  simp [attrToksIn, runDepth]

theorem balanced_flattenMap {α : Type} (g : α → List Tok) (l : List α)
    (h : ∀ x, Balanced (g x)) : Balanced (l.map g).flatten := by
  induction l with
  | nil => intro d; rfl
  | cons x xs ih =>
    simp only [List.map_cons, List.flatten_cons]
    exact balanced_append (h x) ih

theorem balanced_fieldToks (f : FieldD) : Balanced (fieldToks f) := by
  apply balanced_append (balanced_flattenMap _ _ balanced_attrToksOut)
  intro d
  simp [runDepth]

theorem balanced_itemToks (it : Item) : Balanced (itemToks it) := by
  apply balanced_append (balanced_flattenMap _ _ balanced_attrToksOut)
  cases hb : it.body with
  | unit =>
    intro d
    simp [runDepth]
  | fields fs =>
    intro d
    have h1 : runDepth [Tok.ident "struct", Tok.ident it.name, Tok.openT .brace] d =
        some (.brace :: d) := by simp [runDepth]
    show runDepth ([Tok.ident "struct", Tok.ident it.name, Tok.openT .brace] ++
      (fs.map fieldToks).flatten ++ [Tok.closeT Delim.brace]) d = some d
    rw [List.append_assoc, runDepth_append_some _ _ _ _ h1,
      runDepth_append_some _ _ _ _ (balanced_flattenMap _ _ balanced_fieldToks _)]
    simp [runDepth]

theorem balanced_fileToks (f : File) : Balanced (fileToks f) :=
  balanced_append (balanced_flattenMap _ _ balanced_attrToksIn)
    (balanced_flattenMap _ _ balanced_itemToks)

theorem balanced_exprToks (e : Expr) : Balanced (exprToks e) := by
  induction e with
  | lit as t =>
    show Balanced ((as.map attrToksOut).flatten ++ [Tok.lit t])
    apply balanced_append (balanced_flattenMap _ _ balanced_attrToksOut)
    intro d
    simp [runDepth]
  | var as s =>
    show Balanced ((as.map attrToksOut).flatten ++ [Tok.ident s])
    apply balanced_append (balanced_flattenMap _ _ balanced_attrToksOut)
    intro d
    simp [runDepth]
  | add as l r ihl ihr =>
    show Balanced ((as.map attrToksOut).flatten ++ exprToks l ++
      Tok.punct '+' :: exprToks r)
    rw [List.append_assoc]
    apply balanced_append (balanced_flattenMap _ _ balanced_attrToksOut)
    apply balanced_append ihl
    intro d
    show runDepth (Tok.punct '+' :: exprToks r) d = some d
    simp only [runDepth]
    exact ihr d

/-! ## C3: round-trip stability of print then reparse -/

theorem file_remove_docs_idem (f : File) :
    RemovableDocs.remove_docs (RemovableDocs.remove_docs f) =
      RemovableDocs.remove_docs f := by
  simp [RemovableDocs.remove_docs, removeDocAttrs_idem, Function.comp, item_remove_idem]

theorem expr_remove_docs_idem (e : Expr) :
    Expr.removeDocsE (Expr.removeDocsE e) = Expr.removeDocsE e := by
  induction e with
  | lit as t => simp [Expr.removeDocsE, removeDocAttrs_idem]
  | var as s => simp [Expr.removeDocsE, removeDocAttrs_idem]
  | add as l r ihl ihr => simp [Expr.removeDocsE, removeDocAttrs_idem, ihl, ihr]

theorem remove_docs_if_file_idem (f : File) (b : Bool) :
    remove_docs_if (remove_docs_if f b) b = remove_docs_if f b := by
  cases b <;> simp [remove_docs_if, file_remove_docs_idem]

theorem remove_docs_if_expr_idem (e : Expr) (b : Bool) :
    remove_docs_if (remove_docs_if e b) b = remove_docs_if e b := by
  cases b <;> simp [remove_docs_if]
  exact expr_remove_docs_idem e

theorem wfFile_remove_docs_if (f : File) (b : Bool) (h : wfFile f = true) :
    wfFile (remove_docs_if f b) = true := by
  cases b <;> simp [remove_docs_if, h, wfFile_remove_docs]

theorem wfExpr_remove_docs_if (e : Expr) (b : Bool) (h : wfExpr e = true) :
    wfExpr (remove_docs_if e b) = true := by
  cases b <;> simp [remove_docs_if, h]
  exact wfExpr_remove_docs e h

/-- C3: round-trip stability: for every well-formed stream that parses at
the complete-unit tier or at the expression tier, tokenizing the
pretty_print output succeeds, and comparing the result with the original
stream via tokens_equal yields true, for every settings state. -/
theorem pretty_print_roundtrip (s : Settings) (t : List Tok) (hwf : wfToks t = true)
    (ht : (∃ f, parseFile t = some f) ∨ (parseFile t = none ∧ ∃ e, parseExpr t = some e)) :
    ∃ u, tokenize (pretty_print s t) = some u ∧ tokens_equal s t u = true := by
  have hwtoks : t.all wfTok = true := by
    simp only [wfToks, Bool.and_eq_true] at hwf
    exact hwf.1
  rcases hfmt : s.format_tokens with _ | _
  · refine ⟨t, ?_, tokens_equal_refl s t⟩
    have hP : pretty_print s t = tsToString t := by simp [pretty_print, hfmt]
    rw [hP]
    exact tokenize_tsToString t hwf
  · rcases ht with ⟨f, hf⟩ | ⟨hnf, e, he⟩
    · have hP : pretty_print s t = unparse (remove_docs_if f s.ignore_docs_for_tokens) := by
        simp [pretty_print, hf, hfmt]
      have hwff2 : wfFile (remove_docs_if f s.ignore_docs_for_tokens) = true :=
        wfFile_remove_docs_if f _ (parseFile_wf t hwtoks f hf)
      have htok : tokenize (unparse (remove_docs_if f s.ignore_docs_for_tokens)) =
          some (fileToks (remove_docs_if f s.ignore_docs_for_tokens)) := by
        apply tokenize_of_emits
        · have h2 := emits_unparse _ hwff2 emits_nl
          simpa using h2
        · exact balanced_fileToks _ []
      refine ⟨fileToks (remove_docs_if f s.ignore_docs_for_tokens), ?_, ?_⟩
      · rw [hP]
        exact htok
      · have hpf2 : parseFile (fileToks (remove_docs_if f s.ignore_docs_for_tokens)) =
          some (remove_docs_if f s.ignore_docs_for_tokens) := parseFile_fileToks _
        simp only [tokens_equal, hf, hpf2, remove_docs_pair, remove_docs_if_pair,
          remove_docs_if_file_idem, decide_eq_true_eq]
    · have hP : pretty_print s t =
          unparse_expr (remove_docs_if e s.ignore_docs_for_tokens) := by
        simp [pretty_print, hnf, he, hfmt]
      have hwfe2 : wfExpr (remove_docs_if e s.ignore_docs_for_tokens) = true :=
        wfExpr_remove_docs_if e _ (parseExpr_wf t hwtoks e he)
      have htok : tokenize (unparse_expr (remove_docs_if e s.ignore_docs_for_tokens)) =
          some (exprToks (remove_docs_if e s.ignore_docs_for_tokens)) := by
        apply tokenize_of_emits
        · have h2 := emits_unparse_expr _ hwfe2 (by rfl) emits_nl
          simpa using h2
        · exact balanced_exprToks _ []
      refine ⟨exprToks (remove_docs_if e s.ignore_docs_for_tokens), ?_, ?_⟩
      · rw [hP]
        exact htok
      · have hpe2 : parseExpr (exprToks (remove_docs_if e s.ignore_docs_for_tokens)) =
          some (remove_docs_if e s.ignore_docs_for_tokens) :=
          parseExpr_exprToks _ hwfe2
        simp only [tokens_equal, hnf, he, hpe2, remove_docs_pair, remove_docs_if_pair,
          remove_docs_if_expr_idem, decide_eq_true_eq]

/-- C3 witness: the documented struct stream (file tier) and the stream
of 1 + 2 (expression tier) both round trip under the default
settings. -/
theorem pretty_print_roundtrip_witness :
    (∃ u, tokenize (pretty_print defaultSettings exMyStructDoc) = some u ∧
      tokens_equal defaultSettings exMyStructDoc u = true) ∧
    (∃ u, tokenize (pretty_print defaultSettings exOnePlusTwo) = some u ∧
      tokens_equal defaultSettings exOnePlusTwo u = true) :=
  ⟨pretty_print_roundtrip defaultSettings exMyStructDoc (by decide)
      (Or.inl ⟨_, rfl⟩),
   pretty_print_roundtrip defaultSettings exOnePlusTwo (by decide)
      (Or.inr ⟨rfl, _, rfl⟩)⟩

end Insta
